import Mathlib

/-!
Verification of the `TreeNode<T>` n-ary tree library.

Two embeddings are used, both translated from `src/unnamed/part_001`:

* `Tree α` — an inductive value rendering of a node: payload, cached sibling
  index (`_index` in the source) and ordered children.  Parent links are
  implicit (a node's parent is the node whose children list contains it).
  The pure operations (`indices`/`pathKey`/`fetch`/`fetchByPathKey`,
  traversals, `map`, `mapAsync`, `clone`, nested-array serialization) are
  functions on this type.

* `Heap α` — an object-graph rendering for the in-place mutating operations
  (`add`, `drop`, `swap`): a list of node records addressed by position,
  each record holding `model`, `parent` pointer, cached `index` and the
  `children` id list.  The mutating methods become state transformers, which
  makes claims about aliasing (a node added to two parents) and about
  mutation-before-validation expressible.
-/

set_option maxHeartbeats 1000000

namespace TreeNodeTS

/-- Value rendering of a `TreeNode<T>`: payload `model`, cached sibling index
`idx` (the `_index` field of the source) and the ordered `children` list. -/
inductive Tree (α : Type) where
  | node (model : α) (idx : Nat) (children : List (Tree α)) : Tree α

namespace Tree

/-- Payload accessor (`model` field). -/
def model : Tree α → α
  | .node m _ _ => m

/-- Cached sibling index accessor (`_index` field). -/
def idx : Tree α → Nat
  | .node _ i _ => i

/-- Children accessor (`_children` field). -/
def children : Tree α → List (Tree α)
  | .node _ _ cs => cs

/-- Overwrite the cached sibling index of the root of a subtree, leaving
everything else alone (`newChild._index = i` in the source). -/
def setIdx : Tree α → Nat → Tree α
  | .node m _ cs, i => .node m i cs

/-- Embedding of the `isLeaf` getter. -/
def isLeaf (t : Tree α) : Bool :=
  t.children.isEmpty

end Tree

mutual

/-- Invariant 1 of the data model as a decidable check: inside the whole
subtree, every child's cached `idx` equals its position in its parent's
children list (the root's own `idx` is unconstrained, matching the source
where a root's index is meaningless). -/
def wellIdx : Tree α → Bool
  | .node _ _ cs => wellIdxFrom 0 cs

/-- Helper of `wellIdx`: checks a children list starting at position `i`. -/
def wellIdxFrom : Nat → List (Tree α) → Bool
  | _, [] => true
  | i, t :: ts => t.idx == i && wellIdx t && wellIdxFrom (i + 1) ts

end

mutual

/-- Embedding of `TreeNode.clone`: a fresh root (constructor gives index 0)
whose children are cloned recursively, each clone's index overwritten with
its sibling position. -/
def cloneT : Tree α → Tree α
  | .node m _ cs => .node m 0 (cloneList 0 cs)

/-- Helper of `cloneT`: clones a children list assigning positions from `i`. -/
def cloneList : Nat → List (Tree α) → List (Tree α)
  | _, [] => []
  | i, c :: cs => (cloneT c).setIdx i :: cloneList (i + 1) cs

end

mutual

/-- Embedding of `TreeNode.map`: the callback receives the original node and
produces the new payload; shape is rebuilt with fresh parent links and
indices assigned by sibling position. -/
def mapT (cb : Tree α → β) : Tree α → Tree β
  | .node m i cs => .node (cb (.node m i cs)) 0 (mapList cb 0 cs)

/-- Helper of `mapT`: maps a children list assigning positions from `i`. -/
def mapList (cb : Tree α → β) : Nat → List (Tree α) → List (Tree β)
  | _, [] => []
  | i, c :: cs => (mapT cb c).setIdx i :: mapList cb (i + 1) cs

end

mutual

/-- Embedding of `TreeNode.mapAsync`.  The value it computes is
deterministic: `Promise.all` writes each child's result at its original
sibling position, so the resulting tree is a pure function of the input.
When a child's callback runs, the only materialized content of the new
parent node passed as context is its payload (its children and parent link
are attached after the child transforms resolve), so the context is
embedded as `Option β` — the new parent's payload, `none` at the root. -/
def mapAsyncP (cb : Tree α → Option β → β) : Tree α → Option β → Tree β
  | .node m i cs, pm =>
    let nm := cb (.node m i cs) pm
    .node nm 0 (mapAsyncList cb (some nm) 0 cs)

/-- Helper of `mapAsyncP`: transforms a children list, giving every child the
new parent payload as context and its sibling position as index. -/
def mapAsyncList (cb : Tree α → Option β → β) : Option β → Nat → List (Tree α) → List (Tree β)
  | _, _, [] => []
  | pm, i, c :: cs => (mapAsyncP cb c pm).setIdx i :: mapAsyncList cb pm (i + 1) cs

end

mutual

/-- Embedding of `TreeNode.pre` under the always-collect callback used by
`flatten("pre")`: the depth-first pre-order linearization. -/
def preFlatten : Tree α → List (Tree α)
  | .node m i cs => .node m i cs :: preList cs

/-- Helper of `preFlatten` over a children list. -/
def preList : List (Tree α) → List (Tree α)
  | [] => []
  | c :: cs => preFlatten c ++ preList cs

end

mutual

/-- Embedding of `TreeNode.post` under the always-collect callback used by
`flatten("post")`: the depth-first post-order linearization. -/
def postFlatten : Tree α → List (Tree α)
  | .node m i cs => postList cs ++ [.node m i cs]

/-- Helper of `postFlatten` over a children list. -/
def postList : List (Tree α) → List (Tree α)
  | [] => []
  | c :: cs => postFlatten c ++ postList cs

end

mutual

/-- Number of nodes in a subtree (termination measure for the queue loop of
`breadth`). -/
def sizeT : Tree α → Nat
  | .node _ _ cs => 1 + sizeL cs

/-- Total node count of a list of subtrees. -/
def sizeL : List (Tree α) → Nat
  | [] => 0
  | c :: cs => sizeT c + sizeL cs

end

theorem sizeL_append (a b : List (Tree α)) : sizeL (a ++ b) = sizeL a + sizeL b := by
  induction a with
  | nil => simp [sizeL]
  | cons c cs ih => simp [sizeL, ih, Nat.add_assoc]

theorem sizeL_children_lt (t : Tree α) : sizeL t.children < sizeT t := by
  cases t with
  | node m i cs => simp [Tree.children, sizeT]

theorem sizeL_enqueue_lt (t : Tree α) (rest : List (Tree α)) :
    sizeL (rest ++ t.children) < sizeL (t :: rest) := by
  have h := sizeL_children_lt t
  simp only [sizeL, sizeL_append]
  omega

/-- Embedding of the FIFO queue loop of `TreeNode.breadth` under the
always-collect callback used by `flatten("breadth")`: dequeue a node, record
it, enqueue its children in order. -/
def bfsAux : List (Tree α) → List (Tree α)
  | [] => []
  | t :: rest => t :: bfsAux (rest ++ t.children)
termination_by q => sizeL q
decreasing_by
  exact sizeL_enqueue_lt _ _

/-- Embedding of `flatten("breadth")`: level order starting from the node. -/
def breadthFlatten (t : Tree α) : List (Tree α) := bfsAux [t]

/-- Fixture tree `1 → {11 → {111, 112}, 12}` of the test suite, with the
cached indices the construction through `add` produces. -/
def fixN : Tree Nat :=
  .node 1 0 [.node 11 0 [.node 111 0 [], .node 112 1 []], .node 12 1 []]

/-- String-payload version of the fixture tree, used by the `mapAsync`
fixture claim. -/
def fixS : Tree String :=
  .node "1" 0 [.node "11" 0 [.node "111" 0 [], .node "112" 1 []], .node "12" 1 []]

/-- C5: on the fixture tree `1 → {11 → {111, 112}, 12}` the three traversal
strategies linearize the subtree as breadth `[1,11,12,111,112]`, pre-order
`[1,11,111,112,12]`, post-order `[111,112,11,12,1]`. -/
theorem c5_traversal_orders :
    (breadthFlatten fixN).map Tree.model = [1, 11, 12, 111, 112] ∧
    (preFlatten fixN).map Tree.model = [1, 11, 111, 112, 12] ∧
    (postFlatten fixN).map Tree.model = [111, 112, 11, 12, 1] := by
  refine ⟨?_, ?_, ?_⟩
  · simp [breadthFlatten, fixN, bfsAux, Tree.children, Tree.model]
  · rfl
  · rfl

/-- Nested array representation of the tree (`NestedArray<T>` in the
source): either a bare payload value or an array of nested representations.
`arr` corresponds exactly to the values for which `Array.isArray` is true. -/
inductive NestedArr (α : Type) where
  | val : α → NestedArr α
  | arr : List (NestedArr α) → NestedArr α

/-- Embedding of the `Array.isArray` test on a nested-array value. -/
def NestedArr.isArr : NestedArr α → Bool
  | .arr _ => true
  | .val _ => false

mutual

/-- Embedding of `TreeNode.toNestedArray`: leaf → bare value; single child →
`[model, ...childResult]` when the child result is an array, else
`[model, childResult]`; multiple children all leaves → `[model, [leaves]]`;
multiple children otherwise → `[model, child1, child2, ...]`. -/
def toNestedArray : Tree α → NestedArr α
  | .node m _ [] => .val m
  | .node m _ [c] =>
    match toNestedArray c with
    | .arr l => .arr (.val m :: l)
    | .val v => .arr [.val m, .val v]
  | .node m _ (c1 :: c2 :: cs) =>
    if (c1 :: c2 :: cs).all Tree.isLeaf then
      .arr [.val m, .arr ((c1 :: c2 :: cs).map (fun c => .val c.model))]
    else
      .arr (.val m :: toNAList (c1 :: c2 :: cs))

/-- Helper of `toNestedArray`: encodes each child of a children list. -/
def toNAList : List (Tree α) → List (NestedArr α)
  | [] => []
  | t :: ts => toNestedArray t :: toNAList ts

end

/-- Extracts the payloads of a run of bare (non-array) values; `none` when an
array value occurs (matching the `inner as T[]` / `rest as T[]` casts, which
the source guards by `hasArrays` checks). -/
def vals : List (NestedArr α) → Option (List α)
  | [] => some []
  | .val v :: xs => (vals xs).map (v :: ·)
  | .arr _ :: _ => none

/-- Chain construction of the decoder (`current = current.addModel(val)`):
each payload becomes the sole child — index 0 — of the previous node. -/
def chainFrom (m : α) : List α → Tree α
  | [] => .node m 0 []
  | v :: vs => .node m 0 [(chainFrom v vs).setIdx 0]

/-- Sequential `add` of a list of children: each gets the next sibling
position as its cached index. -/
def assignIdx : Nat → List (Tree α) → List (Tree α)
  | _, [] => []
  | i, c :: cs => c.setIdx i :: assignIdx (i + 1) cs

mutual

/-- Embedding of `TreeNode.fromNestedArray`.  Returns `none` exactly where
the source would destructure a model of the wrong kind (an empty array gives
an `undefined` model, an array-headed array gives an array-valued model),
neither of which is producible by `toNestedArray` or representable with an
opaque payload type. -/
def fromNestedArray : NestedArr α → Option (Tree α)
  | .val v => some (.node v 0 [])
  | .arr [] => none
  | .arr (.arr _ :: _) => none
  | .arr [.val m] => some (.node m 0 [])
  | .arr [.val m, .arr inner] =>
    if inner.all (fun x => !x.isArr) then
      (vals inner).map (fun ms =>
        .node m 0 (assignIdx 0 (ms.map (fun v => .node v 0 []))))
    else
      (fromNestedArray (.arr inner)).map (fun c => .node m 0 [c.setIdx 0])
  | .arr (.val m :: rest) =>
    if rest.all (fun x => !x.isArr) then
      (vals rest).map (fun ms => chainFrom m ms)
    else
      (fromNAList rest).map (fun cs => .node m 0 (assignIdx 0 cs))
termination_by na => sizeOf na
decreasing_by
  all_goals simp
  all_goals omega

/-- Helper of `fromNestedArray`: decodes every element of the tail as a
child (the explicit multiple-children case). -/
def fromNAList : List (NestedArr α) → Option (List (Tree α))
  | [] => some []
  | x :: xs =>
    match fromNestedArray x, fromNAList xs with
    | some t, some ts => some (t :: ts)
    | _, _ => none
termination_by l => sizeOf l
decreasing_by
  all_goals simp
  all_goals omega

end

/-- Chain fixture `1 → 2 → 3`: every node has at most one child. -/
def chainFix : Tree Nat := .node 1 0 [.node 2 0 [.node 3 0 []]]

/-- Multi-leaf fixture `1 → {2, 3}`: the root's children are all leaves. -/
def multiLeafFix : Tree Nat := .node 1 0 [.node 2 0 [], .node 3 1 []]

/-- Mixed fixture `1 → {2 → {4}, 3}`: multiple children, one non-leaf. -/
def mixedFix : Tree Nat := .node 1 0 [.node 2 0 [.node 4 0 []], .node 3 1 []]

/-- C7: `toNestedArray` followed by `fromNestedArray` reconstructs the tree
(same models, same order, same shape — here literally the same value) for a
chain tree, a tree whose root children are all leaves, and a mixed tree. -/
theorem c7_nested_array_roundtrip :
    fromNestedArray (toNestedArray chainFix) = some chainFix ∧
    fromNestedArray (toNestedArray multiLeafFix) = some multiLeafFix ∧
    fromNestedArray (toNestedArray mixedFix) = some mixedFix := by
  refine ⟨?_, ?_, ?_⟩ <;>
    simp [chainFix, multiLeafFix, mixedFix, toNestedArray, toNAList,
      fromNestedArray, fromNAList, vals, chainFrom, assignIdx, Tree.isLeaf,
      Tree.setIdx, Tree.model, Tree.children, NestedArr.isArr, List.isEmpty]

/-- Ambiguity fixture of the nested-array encoding: a root with exactly one
child that itself has two leaf children, `1 → {2 → {3, 4}}`. -/
def ambFix : Tree Nat := .node 1 0 [.node 2 0 [.node 3 0 [], .node 4 1 []]]

/-- Decoding result of `toNestedArray ambFix`: a root with two children, a
leaf `2` and a two-node chain `3 → 4`. -/
def ambDec : Tree Nat := .node 1 0 [.node 2 0 [], .node 3 1 [.node 4 0 []]]

/-- C9: the nested-array encoding is structurally ambiguous for plain scalar
payloads: `1 → {2 → {3, 4}}` encodes as `[1, 2, [3, 4]]`, which decodes as a
root with two children (a leaf and a two-node chain), so the round trip does
not return an isomorphic tree (the root's child count changes from 1 to 2). -/
theorem c9_nested_array_ambiguous :
    toNestedArray ambFix = .arr [.val 1, .val 2, .arr [.val 3, .val 4]] ∧
    fromNestedArray (toNestedArray ambFix) = some ambDec ∧
    (Tree.children ambDec).length = 2 ∧
    (Tree.children ambFix).length = 1 ∧
    (Tree.children ambDec).map Tree.children = [[], [.node 4 0 []]] := by
  refine ⟨rfl, ?_, rfl, rfl, rfl⟩
  simp [ambFix, ambDec, toNestedArray, toNAList, fromNestedArray, fromNAList,
    vals, chainFrom, assignIdx, Tree.isLeaf, Tree.setIdx, Tree.model,
    Tree.children, NestedArr.isArr, List.isEmpty]

/-- Embedding of `TreeNode.fetch`: walk `children[i]` for each index in the
list, returning `none` the moment a lookup is out of range. -/
def fetch : Tree α → List Nat → Option (Tree α)
  | t, [] => some t
  | t, i :: rest =>
    match t.children.get? i with
    | some c => fetch c rest
    | none => none

/-- Cached-index path of the node reached by the structural position list
`p`: collects the cached `idx` of every node entered.  This is the value the
`indices` getter computes for that node (the source walks the parent chain
pushing `node.index` and reverses; read top-down that is exactly this). -/
def cachedIndices : Tree α → List Nat → Option (List Nat)
  | _, [] => some []
  | t, i :: rest =>
    match t.children.get? i with
    | some c => (cachedIndices c rest).map (c.idx :: ·)
    | none => none

/-- Accumulator loop of the `pathKey` getter: `z` is the pending
`zeroCount`; a zero index extends the run, a nonzero index flushes the
pending run (if positive) and emits its negation, and a trailing run is
flushed at the end. -/
def rleGo (z : Nat) : List Nat → List Int
  | [] => if 0 < z then [(z : Int)] else []
  | 0 :: rest => rleGo (z + 1) rest
  | (k + 1) :: rest =>
    (if 0 < z then [(z : Int)] else []) ++ (-(k + 1 : Int)) :: rleGo 0 rest

/-- Token sequence the `pathKey` getter produces for an index list. -/
def rleTokens (l : List Nat) : List Int := rleGo 0 l

/-- Decimal digit characters of a number, fuel-indexed so that the kernel
can evaluate it (`fuel ≥ n` suffices); mirrors the digit production of the
JavaScript number-to-string conversion used by `join`. -/
def natCharsGo : Nat → Nat → List Char
  | 0, _ => []
  | _ + 1, 0 => []
  | fuel + 1, n + 1 => natCharsGo fuel ((n + 1) / 10) ++ [Nat.digitChar ((n + 1) % 10)]

/-- Decimal character string of a natural number. -/
def natChars (n : Nat) : List Char := if n = 0 then ['0'] else natCharsGo n n

/-- Character string of an integer, as JavaScript `String(n)` renders the
integer tokens that `parts.join(',')` stringifies. -/
def intChars : Int → List Char
  | .ofNat n => natChars n
  | .negSucc m => '-' :: natChars (m + 1)

/-- Value of a run of decimal digit characters (the digit-consuming core of
the JavaScript `Number` conversion applied to each split token). -/
def parseNatChars (l : List Char) : Nat :=
  l.foldl (fun acc c => acc * 10 + (c.toNat - 48)) 0

/-- Integer value of a token string (JavaScript `Number` on the well-formed
tokens produced by `pathKey`): optional leading minus sign, then digits. -/
def parseIntChars : List Char → Int
  | [] => 0
  | c :: rest =>
    if c = '-' then -(parseNatChars rest : Int) else (parseNatChars (c :: rest) : Int)

/-- Character-level embedding of `Array.prototype.join(',')`. -/
def joinComma : List (List Char) → List Char
  | [] => []
  | [p] => p
  | p :: ps => p ++ ',' :: joinComma ps

/-- Character-level embedding of `String.prototype.split(',')`: split at
every comma; the empty string yields one empty piece. -/
def splitComma : List Char → List (List Char)
  | [] => [[]]
  | c :: rest =>
    if c = ',' then [] :: splitComma rest
    else
      match splitComma rest with
      | [] => [[c]]
      | p :: ps => (c :: p) :: ps

/-- Embedding of the `pathKey` getter as a function of the node's index
list: the empty list (a root) yields the empty string, otherwise the
run-length tokens joined with commas. -/
def pathKeyStr (l : List Nat) : String :=
  if l = [] then "" else ⟨joinComma ((rleTokens l).map intChars)⟩

/-- Expansion of one parsed token in `fetchByPathKey`: a nonnegative token
`n` contributes `n` zero indices, a negative token `-k` contributes the
single index `k`. -/
def expandTok (part : Int) : List Nat :=
  if 0 ≤ part then List.replicate part.toNat 0 else [(-part).toNat]

/-- Embedding of `TreeNode.fetchByPathKey`: the empty key addresses the
receiver; otherwise split the key on commas, parse each token as a number,
expand the tokens into an index list and delegate to `fetch`. -/
def fetchByPathKey (t : Tree α) (key : String) : Option (Tree α) :=
  if key = "" then some t
  else fetch t (((splitComma key.data).map parseIntChars).flatMap expandTok)

theorem parseNatChars_append_single (x : List Char) (c : Char) :
    parseNatChars (x ++ [c]) = parseNatChars x * 10 + (c.toNat - 48) := by
  simp [parseNatChars, List.foldl_append]

theorem digitChar_toNat (r : Nat) (h : r < 10) : (Nat.digitChar r).toNat = 48 + r := by
  interval_cases r <;> rfl

theorem parseNatChars_go (fuel : Nat) :
    ∀ n, n ≤ fuel → parseNatChars (natCharsGo fuel n) = n := by
  induction fuel with
  | zero =>
    intro n hn
    interval_cases n
    rfl
  | succ fuel ih =>
    intro n hn
    match n with
    | 0 => rfl
    | n + 1 =>
      rw [natCharsGo, parseNatChars_append_single]
      have hq : (n + 1) / 10 ≤ fuel := by
        have := Nat.div_lt_self (Nat.succ_pos n) (by norm_num : 1 < 10)
        omega
      rw [ih _ hq, digitChar_toNat _ (Nat.mod_lt _ (by norm_num))]
      omega

theorem natCharsGo_mem (fuel : Nat) :
    ∀ n c, c ∈ natCharsGo fuel n → 48 ≤ c.toNat ∧ c.toNat ≤ 57 := by
  induction fuel with
  | zero =>
    intro n c hc
    simp [natCharsGo] at hc
  | succ fuel ih =>
    intro n c hc
    match n with
    | 0 => simp [natCharsGo] at hc
    | n + 1 =>
      rw [natCharsGo] at hc
      rcases List.mem_append.mp hc with h | h
      · exact ih _ _ h
      · have he : c = Nat.digitChar ((n + 1) % 10) := by simpa using h
        have hlt : (n + 1) % 10 < 10 := Nat.mod_lt _ (by norm_num)
        rw [he, digitChar_toNat _ hlt]
        omega

theorem natChars_mem (n : Nat) (c : Char) (hc : c ∈ natChars n) :
    48 ≤ c.toNat ∧ c.toNat ≤ 57 := by
  unfold natChars at hc
  split at hc
  · have : c = '0' := by simpa using hc
    rw [this]
    decide
  · exact natCharsGo_mem _ _ _ hc

theorem natChars_ne_nil (n : Nat) : natChars n ≠ [] := by
  unfold natChars
  split
  · simp
  · rename_i h
    match n, h with
    | n + 1, _ => rw [natCharsGo]; simp

theorem parseNatChars_natChars (n : Nat) : parseNatChars (natChars n) = n := by
  unfold natChars
  split
  · rename_i h
    rw [h]
    rfl
  · exact parseNatChars_go n n le_rfl

theorem parseIntChars_intChars (t : Int) : parseIntChars (intChars t) = t := by
  cases t with
  | ofNat n =>
    show parseIntChars (natChars n) = Int.ofNat n
    have hne := natChars_ne_nil n
    match h : natChars n with
    | [] => exact absurd h hne
    | c :: rest =>
      have hm : 48 ≤ c.toNat := (natChars_mem n c (by rw [h]; exact List.mem_cons_self _ _)).1
      have hcm : c ≠ '-' := by
        intro e
        rw [e] at hm
        exact absurd hm (by decide)
      rw [parseIntChars, if_neg hcm, ← h, parseNatChars_natChars]
      simp
  | negSucc m =>
    show parseIntChars ('-' :: natChars (m + 1)) = Int.negSucc m
    rw [parseIntChars, if_pos rfl, parseNatChars_natChars]
    simp [Int.negSucc_eq]

theorem intChars_ne_nil (t : Int) : intChars t ≠ [] := by
  cases t with
  | ofNat n => exact natChars_ne_nil n
  | negSucc m => simp [intChars]

theorem intChars_no_comma (t : Int) : ',' ∉ intChars t := by
  have hn : ∀ k, ',' ∉ natChars k := by
    intro k hmem
    have := natChars_mem k ',' hmem
    exact absurd this.1 (by decide)
  cases t with
  | ofNat n => exact hn n
  | negSucc m =>
    intro hmem
    rcases List.mem_cons.mp hmem with h | h
    · exact absurd h.symm (by decide)
    · exact hn _ h

theorem splitComma_no_comma (p : List Char) (hp : ',' ∉ p) : splitComma p = [p] := by
  induction p with
  | nil => rfl
  | cons c rest ih =>
    have hc : c ≠ ',' := fun e => hp (e ▸ List.mem_cons_self _ _)
    have hrest : ',' ∉ rest := fun h => hp (List.mem_cons_of_mem _ h)
    rw [splitComma, if_neg hc, ih hrest]

theorem splitComma_append_comma (p l : List Char) (hp : ',' ∉ p) :
    splitComma (p ++ ',' :: l) = p :: splitComma l := by
  induction p with
  | nil => simp [splitComma]
  | cons c rest ih =>
    have hc : c ≠ ',' := fun e => hp (e ▸ List.mem_cons_self _ _)
    have hrest : ',' ∉ rest := fun h => hp (List.mem_cons_of_mem _ h)
    rw [List.cons_append, splitComma, if_neg hc, ih hrest]

theorem splitComma_joinComma (parts : List (List Char)) (hne : parts ≠ [])
    (hc : ∀ p ∈ parts, ',' ∉ p) : splitComma (joinComma parts) = parts := by
  induction parts with
  | nil => exact absurd rfl hne
  | cons p ps ih =>
    cases ps with
    | nil => exact splitComma_no_comma p (hc p (List.mem_cons_self _ _))
    | cons q qs =>
      have h1 : joinComma (p :: q :: qs) = p ++ ',' :: joinComma (q :: qs) := rfl
      have hrest : splitComma (joinComma (q :: qs)) = q :: qs :=
        ih (fun h => List.noConfusion h) (fun r hr => hc r (List.mem_cons_of_mem _ hr))
      rw [h1, splitComma_append_comma _ _ (hc p (List.mem_cons_self _ _)), hrest]

theorem joinComma_ne_nil (q : List Char) (qs : List (List Char)) (hq : q ≠ []) :
    joinComma (q :: qs) ≠ [] := by
  match qs with
  | [] => simpa [joinComma]
  | r :: rs => simp [joinComma]

theorem rleGo_ne_nil (l : List Nat) : ∀ z, 0 < z → rleGo z l ≠ [] := by
  induction l with
  | nil =>
    intro z hz
    simp [rleGo, hz]
  | cons i rest ih =>
    intro z hz
    match i with
    | 0 => rw [rleGo]; exact ih (z + 1) (by omega)
    | k + 1 => rw [rleGo]; simp

theorem rleTokens_ne_nil (l : List Nat) (h : l ≠ []) : rleTokens l ≠ [] := by
  match l with
  | [] => exact absurd rfl h
  | 0 :: rest => rw [rleTokens, rleGo]; exact rleGo_ne_nil rest 1 (by omega)
  | (k + 1) :: rest => rw [rleTokens, rleGo]; simp

theorem expandTok_nonneg (z : Nat) : expandTok (z : Int) = List.replicate z 0 := by
  rw [expandTok, if_pos (by omega)]
  simp

theorem expandTok_neg (k : Nat) : expandTok (-(k + 1 : Int)) = [k + 1] := by
  rw [expandTok, if_neg (by omega)]
  simp

theorem expandTok_rleGo (l : List Nat) :
    ∀ z, ((rleGo z l).flatMap expandTok) = List.replicate z 0 ++ l := by
  induction l with
  | nil =>
    intro z
    by_cases hz : 0 < z
    · rw [rleGo, if_pos hz]
      simp [expandTok_nonneg]
    · have : z = 0 := by omega
      subst this
      simp [rleGo]
  | cons i rest ih =>
    intro z
    match i with
    | 0 =>
      rw [rleGo, ih (z + 1), List.replicate_succ']
      simp
    | k + 1 =>
      rw [rleGo]
      by_cases hz : 0 < z
      · rw [if_pos hz]
        simp only [List.flatMap_append, List.flatMap_cons, List.flatMap_nil]
        rw [ih 0, expandTok_nonneg, expandTok_neg]
        simp
      · have hz0 : z = 0 := by omega
        subst hz0
        rw [if_neg (by omega), List.nil_append]
        simp only [List.flatMap_cons]
        rw [ih 0, expandTok_neg]
        simp

theorem wellIdxFrom_get (cs : List (Tree α)) :
    ∀ (k j : Nat) (c : Tree α), wellIdxFrom k cs = true → cs.get? j = some c →
      c.idx = k + j ∧ wellIdx c = true := by
  induction cs with
  | nil =>
    intro k j c _ hg
    simp at hg
  | cons t ts ih =>
    intro k j c h hg
    rw [wellIdxFrom] at h
    simp only [Bool.and_eq_true, beq_iff_eq] at h
    match j with
    | 0 =>
      have : t = c := by simpa using hg
      subst this
      exact ⟨by rw [h.1.1]; omega, h.1.2⟩
    | j + 1 =>
      have hg2 : ts.get? j = some c := by simpa using hg
      have := ih (k + 1) j c h.2 hg2
      exact ⟨by omega, this.2⟩

theorem cachedIndices_wellIdx (p : List Nat) :
    ∀ (t n : Tree α), wellIdx t = true → fetch t p = some n →
      cachedIndices t p = some p := by
  induction p with
  | nil => intro t n _ _; rfl
  | cons i rest ih =>
    intro t n hw hf
    rw [fetch] at hf
    cases hg : t.children.get? i with
    | none => rw [hg] at hf; simp at hf
    | some c =>
      rw [hg] at hf
      have hf2 : fetch c rest = some n := hf
      have hwf : wellIdxFrom 0 t.children = true := by
        cases t with
        | node m j cs => exact hw
      have hc := wellIdxFrom_get t.children 0 i c hwf hg
      have hstep : cachedIndices t (i :: rest) =
          (cachedIndices c rest).map (c.idx :: ·) := by
        rw [cachedIndices, hg]
      rw [hstep, ih c n hc.2 hf2]
      simp [hc.1]

theorem map_parseIntChars_intChars (toks : List Int) :
    (toks.map intChars).map parseIntChars = toks := by
  induction toks with
  | nil => rfl
  | cons a b ih => simp only [List.map_cons, parseIntChars_intChars, ih]

/-- C3: `pathKey` and `fetchByPathKey` are mutual inverses: on a tree
satisfying the index invariant, the cached index list of the node at any
reachable structural position `p` is `p` itself, and fetching by the path
key computed from it returns exactly that node (the empty key of a root
maps back to the receiver). -/
theorem c3_pathkey_fetchbypathkey_inverse {α : Type} (t n : Tree α) (p : List Nat)
    (hw : wellIdx t = true) (hf : fetch t p = some n) :
    cachedIndices t p = some p ∧ fetchByPathKey t (pathKeyStr p) = some n := by
  refine ⟨cachedIndices_wellIdx p t n hw hf, ?_⟩
  by_cases hp : p = []
  · subst hp
    have ht : t = n := Option.some.inj hf
    rw [pathKeyStr, if_pos rfl, fetchByPathKey, if_pos rfl, ht]
  · have htoks : rleTokens p ≠ [] := rleTokens_ne_nil p hp
    obtain ⟨t0, ts, hts⟩ : ∃ t0 ts, rleTokens p = t0 :: ts := by
      cases h : rleTokens p with
      | nil => exact absurd h htoks
      | cons a b => exact ⟨a, b, rfl⟩
    have hkey : pathKeyStr p = ⟨joinComma ((rleTokens p).map intChars)⟩ := by
      rw [pathKeyStr, if_neg hp]
    have hjoin_ne : joinComma ((rleTokens p).map intChars) ≠ [] := by
      rw [hts, List.map_cons]
      exact joinComma_ne_nil _ _ (intChars_ne_nil t0)
    have hkey_ne : (⟨joinComma ((rleTokens p).map intChars)⟩ : String) ≠ "" := by
      intro h
      exact hjoin_ne (congrArg String.data h)
    rw [hkey, fetchByPathKey, if_neg hkey_ne]
    have hdata : (⟨joinComma ((rleTokens p).map intChars)⟩ : String).data =
        joinComma ((rleTokens p).map intChars) := rfl
    rw [hdata, splitComma_joinComma _ ?mapne ?commafree]
    case mapne =>
      rw [hts, List.map_cons]
      exact List.cons_ne_nil _ _
    case commafree =>
      intro part hpart
      rcases List.mem_map.mp hpart with ⟨tok, _, rfl⟩
      exact intChars_no_comma tok
    rw [map_parseIntChars_intChars, rleTokens, expandTok_rleGo p 0]
    simpa using hf

/-- Witness for C3 at the fixture tree and node `112`. -/
theorem c3_witness :
    wellIdx fixN = true ∧ fetch fixN [0, 1] = some (.node 112 1 []) ∧
      (cachedIndices fixN [0, 1] = some [0, 1] ∧
        fetchByPathKey fixN (pathKeyStr [0, 1]) = some (.node 112 1 [])) :=
  ⟨by decide, rfl,
    c3_pathkey_fetchbypathkey_inverse fixN (.node 112 1 []) [0, 1] (by decide) rfl⟩

/-- Modelled from the spec's run-length description, by maximal zero runs:
each maximal run of consecutive zero indices is flushed as one positive
token equal to the run length (a trailing run included), and each nonzero
index `k` is emitted as the token `-k`. -/
def rleSpecF : List Nat → List Int
  | [] => []
  | 0 :: rest =>
    ((1 + (rest.takeWhile (· == 0)).length : Nat) : Int) ::
      rleSpecF (rest.dropWhile (· == 0))
  | (k + 1) :: rest => -(k + 1 : Int) :: rleSpecF rest
termination_by l => l.length
decreasing_by
  · have h : (rest.dropWhile (fun x => x == 0)).length ≤ rest.length :=
      (List.dropWhile_suffix (fun x : Nat => x == 0)).length_le
    simp only [List.length_cons]
    omega
  · simp

/-- Effect of a pending zero-run count on an already-encoded token list:
merge it into a leading positive token when there is one, otherwise emit it
in front (a zero pending count changes nothing). -/
def addPending : Nat → List Int → List Int
  | 0, ts => ts
  | z + 1, t :: ts2 =>
    if 0 < t then (t + (z + 1 : Nat)) :: ts2 else ((z + 1 : Nat) : Int) :: t :: ts2
  | z + 1, [] => [((z + 1 : Nat) : Int)]

theorem rleGo_nil_eval (z : Nat) :
    rleGo z [] = if 0 < z then [(z : Int)] else [] := by
  rw [rleGo]

theorem rleGo_zero_cons (z : Nat) (rest : List Nat) :
    rleGo z (0 :: rest) = rleGo (z + 1) rest := by
  rw [rleGo]

theorem rleGo_nonzero_cons (z k : Nat) (rest : List Nat) :
    rleGo z ((k + 1) :: rest) =
      (if 0 < z then [(z : Int)] else []) ++ -(k + 1 : Int) :: rleGo 0 rest := by
  rw [rleGo]

theorem addPending_zero (ts : List Int) : addPending 0 ts = ts := rfl

theorem addPending_succ_nil (z : Nat) :
    addPending (z + 1) [] = [((z + 1 : Nat) : Int)] := rfl

theorem addPending_succ_cons (z : Nat) (t : Int) (ts2 : List Int) :
    addPending (z + 1) (t :: ts2) =
      if 0 < t then (t + ((z + 1 : Nat) : Int)) :: ts2
      else ((z + 1 : Nat) : Int) :: t :: ts2 := rfl

theorem addPending_addPending (a b : Nat) (hb : 0 < b) (X : List Int) :
    addPending a (addPending b X) = addPending (a + b) X := by
  match b, hb with
  | b + 1, _ =>
    have hab : a + (b + 1) = (a + b) + 1 := by omega
    rw [hab]
    match a with
    | 0 =>
      rw [addPending_zero, Nat.zero_add]
    | a + 1 =>
      have hab2 : (a + 1) + b + 1 = (a + b + 1) + 1 := by omega
      rw [hab2]
      match X with
      | [] =>
        rw [addPending_succ_nil b, addPending_succ_cons a, addPending_succ_nil (a + b + 1),
          if_pos (show (0 : Int) < ((b + 1 : Nat) : Int) by omega)]
        simp only [List.cons.injEq, and_true]
        push_cast
        omega
      | t :: ts2 =>
        rw [addPending_succ_cons b t ts2]
        by_cases ht : 0 < t
        · rw [if_pos ht, addPending_succ_cons a, addPending_succ_cons (a + b + 1) t ts2,
            if_pos (show (0 : Int) < t + ((b + 1 : Nat) : Int) by omega), if_pos ht]
          simp only [List.cons.injEq, and_true]
          push_cast
          omega
        · rw [if_neg ht, addPending_succ_cons a, addPending_succ_cons (a + b + 1) t ts2,
            if_pos (show (0 : Int) < ((b + 1 : Nat) : Int) by omega), if_neg ht]
          simp only [List.cons.injEq, and_true]
          push_cast
          omega

theorem rleGo_addPending (l : List Nat) :
    ∀ z, rleGo z l = addPending z (rleGo 0 l) := by
  induction l with
  | nil =>
    intro z
    match z with
    | 0 => rw [addPending_zero]
    | z + 1 =>
      rw [rleGo_nil_eval, if_pos (by omega), rleGo_nil_eval, if_neg (by omega),
        addPending_succ_nil]
  | cons i rest ih =>
    intro z
    match i with
    | 0 =>
      rw [rleGo_zero_cons, ih (z + 1)]
      conv_rhs => rw [rleGo_zero_cons, ih 1]
      rw [addPending_addPending z 1 (by omega)]
    | k + 1 =>
      rw [rleGo_nonzero_cons]
      conv_rhs =>
        rw [rleGo_nonzero_cons 0 k rest, if_neg (by omega), List.nil_append]
      match z with
      | 0 => rw [if_neg (by omega), List.nil_append, addPending_zero]
      | z + 1 =>
        rw [if_pos (by omega), addPending_succ_cons z,
          if_neg (show ¬(0 : Int) < -(k + 1 : Int) by omega)]
        simp

theorem rleSpecF_nil : rleSpecF ([] : List Nat) = [] := by
  rw [rleSpecF]

theorem rleGo_zero_spec (l : List Nat) : rleGo 0 l = rleSpecF l := by
  induction l with
  | nil => rw [rleGo_nil_eval, if_neg (by omega), rleSpecF_nil]
  | cons i rest ih =>
    match i with
    | 0 =>
      rw [rleGo_zero_cons, rleGo_addPending rest 1, ih]
      match rest with
      | [] =>
        rw [rleSpecF_nil, addPending_succ_nil 0]
        have hR : rleSpecF [0] =
            ((1 + (List.takeWhile (· == 0) ([] : List Nat)).length : Nat) : Int) ::
              rleSpecF (List.dropWhile (· == 0) ([] : List Nat)) := by
          rw [rleSpecF]
        rw [hR]
        simp [List.takeWhile_nil, List.dropWhile_nil, rleSpecF_nil]
      | 0 :: r2 =>
        have hL : rleSpecF (0 :: r2) =
            ((1 + (r2.takeWhile (· == 0)).length : Nat) : Int) ::
              rleSpecF (r2.dropWhile (· == 0)) := by
          rw [rleSpecF]
        have hR : rleSpecF (0 :: 0 :: r2) =
            ((1 + ((0 :: r2).takeWhile (· == 0)).length : Nat) : Int) ::
              rleSpecF ((0 :: r2).dropWhile (· == 0)) := by
          rw [rleSpecF]
        rw [hL, addPending_succ_cons 0,
          if_pos (show (0 : Int) < ((1 + (r2.takeWhile (· == 0)).length : Nat) : Int) by
            push_cast; omega),
          hR]
        simp only [List.takeWhile_cons, beq_self_eq_true, if_true, List.length_cons,
          List.dropWhile_cons, List.cons.injEq, and_true]
        push_cast
        omega
      | (j + 1) :: r2 =>
        have hL : rleSpecF ((j + 1) :: r2) = -(j + 1 : Int) :: rleSpecF r2 := by
          rw [rleSpecF]
        have hR : rleSpecF (0 :: (j + 1) :: r2) =
            ((1 + (((j + 1) :: r2).takeWhile (· == 0)).length : Nat) : Int) ::
              rleSpecF (((j + 1) :: r2).dropWhile (· == 0)) := by
          rw [rleSpecF]
        rw [hL, addPending_succ_cons 0,
          if_neg (show ¬(0 : Int) < -(j + 1 : Int) by omega), hR]
        simp only [List.takeWhile_cons, List.dropWhile_cons]
        norm_num [hL]
    | k + 1 =>
      have hR : rleSpecF ((k + 1) :: rest) = -(k + 1 : Int) :: rleSpecF rest := by
        rw [rleSpecF]
      rw [rleGo_nonzero_cons, if_neg (by omega), List.nil_append, ih, hR]

/-- C4: `pathKey` equals the run-length encoding by maximal zero runs —
each maximal run of consecutive zeros becomes one positive token equal to
its length (trailing runs included), each nonzero index `k` becomes `-k`,
the tokens are joined with commas, a root's empty index list yields the
empty string, and `[0,0,0,1,0,0]` yields `"3,-1,2"`. -/
theorem c4_pathkey_is_rle :
    (∀ l : List Nat, rleTokens l = rleSpecF l) ∧
    (∀ l : List Nat, pathKeyStr l =
      if l = [] then "" else ⟨joinComma ((rleSpecF l).map intChars)⟩) ∧
    pathKeyStr [] = "" ∧
    pathKeyStr [0, 0, 0, 1, 0, 0] = "3,-1,2" := by
  have h1 : ∀ l : List Nat, rleTokens l = rleSpecF l := fun l => rleGo_zero_spec l
  refine ⟨h1, ?_, rfl, by decide⟩
  intro l
  rw [pathKeyStr, h1 l]

theorem mapAsyncList_length (cb : Tree α → Option β → β) (pm : Option β) :
    ∀ (cs : List (Tree α)) (i : Nat), (mapAsyncList cb pm i cs).length = cs.length := by
  intro cs
  induction cs with
  | nil => intro i; rfl
  | cons c rest ih => intro i; simp [mapAsyncList, ih (i + 1)]

theorem mapAsyncList_get (cb : Tree α → Option β → β) (pm : Option β) :
    ∀ (cs : List (Tree α)) (i j : Nat),
      (mapAsyncList cb pm i cs).get? j =
        (cs.get? j).map (fun c => (mapAsyncP cb c pm).setIdx (i + j)) := by
  intro cs
  induction cs with
  | nil => intros; simp [mapAsyncList]
  | cons c rest ih =>
    intro i j
    match j with
    | 0 => simp [mapAsyncList]
    | j + 1 =>
      rw [mapAsyncList]
      simp only [List.get?_cons_succ]
      rw [ih (i + 1) j]
      have : i + 1 + j = i + (j + 1) := by omega
      rw [this]

/-- C6: `mapAsync` rebuilds an isomorphic tree in which each node's payload
is the callback applied to the corresponding original node and the
materialized parent context; child slot `j` of the result holds the
transform of original child `j`, whose context is the freshly computed
parent payload; on the string fixture with callback
`model ++ "-" ++ (parentModel ?? "null")` the breadth-order payloads are as
listed. -/
theorem c6_mapasync_parent_context :
    (∀ (α β : Type) (cb : Tree α → Option β → β) (t : Tree α) (pm : Option β),
      (mapAsyncP cb t pm).model = cb t pm ∧
      (mapAsyncP cb t pm).children.length = t.children.length ∧
      (∀ j, (mapAsyncP cb t pm).children.get? j =
        (t.children.get? j).map
          (fun c => (mapAsyncP cb c (some (cb t pm))).setIdx j))) ∧
    (breadthFlatten
        (mapAsyncP (fun n pm => n.model ++ "-" ++ pm.getD "null") fixS none)).map
      Tree.model =
      ["1-null", "11-1-null", "12-1-null", "111-11-1-null", "112-11-1-null"] := by
  constructor
  · intro α β cb t pm
    cases t with
    | node m i cs =>
      refine ⟨rfl, ?_, ?_⟩
      · exact mapAsyncList_length cb _ cs 0
      · intro j
        have h := mapAsyncList_get cb (some (cb (.node m i cs) pm)) cs 0 j
        simpa using h
  · simp [breadthFlatten, bfsAux, fixS, mapAsyncP, mapAsyncList,
      Tree.setIdx, Tree.children, Tree.model]

/-- Record of one `TreeNode` object in the object-graph rendering used for
the in-place mutating operations: payload, parent pointer (`null` is
`none`), cached `_index`, and the ids of the children in order. -/
structure NodeRec (α : Type) where
  model : α
  parent : Option Nat
  index : Nat
  children : List Nat
deriving Repr, DecidableEq

/-- Object graph: a list of node records, a node id being its position. -/
abbrev Heap (α : Type) := List (NodeRec α)

/-- Record of node `n` (`none` for an id outside the heap). -/
def getN (s : Heap α) (n : Nat) : Option (NodeRec α) := s.get? n

/-- In-place update of the record of node `n` (no-op on an invalid id). -/
def updN (s : Heap α) (n : Nat) (f : NodeRec α → NodeRec α) : Heap α :=
  match s.get? n with
  | some r => s.set n (f r)
  | none => s

/-- Children id list of node `p` (empty for an invalid id). -/
def childrenOfH (s : Heap α) (p : Nat) : List Nat :=
  ((getN s p).map NodeRec.children).getD []

/-- Parent pointer of node `n`. -/
def parentOfH (s : Heap α) (n : Nat) : Option Nat :=
  (getN s n).bind NodeRec.parent

/-- Cached `_index` of node `n` (0 for an invalid id). -/
def indexOfH (s : Heap α) (n : Nat) : Nat :=
  ((getN s n).map NodeRec.index).getD 0

/-- Sequential execution of re-index assignments `node._index = position`
over a precomputed (id, position) list.  The source loop re-reads
`this._children[i]` at each step, but its body only assigns `_index`
fields, which never changes any children list, so the pairs computed before
the loop are exactly the ones the loop visits. -/
def setIdxSeq (s : Heap α) : List (Nat × Nat) → Heap α
  | [] => s
  | (n, v) :: rest => setIdxSeq (updN s n fun r => { r with index := v }) rest

/-- Pairs (occupant id, position) for consecutive positions starting at `k`. -/
def idxPairsFrom (k : Nat) : List Nat → List (Nat × Nat)
  | [] => []
  | n :: rest => (n, k) :: idxPairsFrom (k + 1) rest

/-- Embedding of the loop
`for (let i = k; i < children.length; i++) children[i]._index = i`. -/
def reindexFrom (s : Heap α) (p k : Nat) : Heap α :=
  setIdxSeq s (idxPairsFrom k ((childrenOfH s p).drop k))

/-- Embedding of `TreeNode.add` (part_001 lines 152-171) as a state
transformer: the post-call heap and `true` when the call returned normally
(`false` encodes the RangeError throw).  The source assigns
`child.parent = this` before the explicit index is validated, so the failed
branch returns the heap with that assignment already applied. -/
def addOp (s : Heap α) (p c : Nat) (k : Option Int) : Heap α × Bool :=
  let s1 := updN s c fun r => { r with parent := some p }
  match k with
  | none =>
    let len := (childrenOfH s1 p).length
    let s2 := updN s1 c fun r => { r with index := len }
    let s3 := updN s2 p fun r => { r with children := r.children ++ [c] }
    (s3, true)
  | some k =>
    let len := (childrenOfH s1 p).length
    if k < 0 ∨ (len : Int) < k then (s1, false)
    else
      let s2 := updN s1 p fun r => { r with children := r.children.insertIdx k.toNat c }
      (reindexFrom s2 p k.toNat, true)

/-- Embedding of `TreeNode.drop` (part_001 lines 202-215): a no-op on a
root (or an invalid id); otherwise splice self out of the parent's children
at the cached index, re-index the siblings at or after that position, then
clear the parent pointer and reset the own index to 0. -/
def dropOp (s : Heap α) (n : Nat) : Heap α :=
  match getN s n with
  | none => s
  | some r =>
    match r.parent with
    | none => s
    | some p =>
      let idx := r.index
      let s1 := updN s p fun pr => { pr with children := pr.children.eraseIdx idx }
      let s2 := reindexFrom s1 p idx
      let s3 := updN s2 n fun nr => { nr with parent := none }
      updN s3 n fun nr => { nr with index := 0 }

/-- Embedding of `TreeNode.swap` (part_001 lines 178-188): bounds-validate
both positions (throw leaves the heap untouched), no-op when equal,
otherwise exchange the two entries and assign both occupants' indices. -/
def swapOp (s : Heap α) (p : Nat) (i j : Int) : Heap α × Bool :=
  let cs := childrenOfH s p
  if i < 0 ∨ j < 0 ∨ (cs.length : Int) ≤ i ∨ (cs.length : Int) ≤ j then (s, false)
  else if i = j then (s, true)
  else
    match cs.get? i.toNat, cs.get? j.toNat with
    | some ci, some cj =>
      let s1 := updN s p fun r => { r with children := (r.children.set i.toNat cj).set j.toNat ci }
      let s2 := updN s1 cj fun r => { r with index := i.toNat }
      let s3 := updN s2 ci fun r => { r with index := j.toNat }
      (s3, true)
    | _, _ => (s, false)

/-- Invariant 1 over the object graph, as a decidable check: every node
with a parent appears in its parent's children list at its cached index. -/
def invC1b (s : Heap α) : Bool :=
  (List.range s.length).all fun n =>
    (parentOfH s n).all fun q => (childrenOfH s q).get? (indexOfH s n) == some n

/-- All children ids and parent pointers refer to valid heap positions. -/
def validIdsB (s : Heap α) : Bool :=
  (List.range s.length).all fun n =>
    ((childrenOfH s n).all fun c => decide (c < s.length)) &&
      ((parentOfH s n).all fun p => decide (p < s.length))

/-- Every node listed among the children of `p` has its parent pointer set
to `p`. -/
def parentMatchB (s : Heap α) : Bool :=
  (List.range s.length).all fun p =>
    (childrenOfH s p).all fun c => parentOfH s c == some p

/-- Concatenation of every node's children list. -/
def allKids (s : Heap α) : List Nat :=
  (List.range s.length).flatMap (childrenOfH s)

/-- Tree-shaped heap: valid ids, invariant 1, parent pointers matching
containment, and no node occurring twice as a child anywhere. -/
def WFp (s : Heap α) : Prop :=
  validIdsB s = true ∧ invC1b s = true ∧ parentMatchB s = true ∧ (allKids s).Nodup

instance (s : Heap α) [DecidableEq α] : Decidable (WFp s) := by
  unfold WFp
  infer_instance

/-- Proposition form of invariant 1. -/
def InvC1 (s : Heap α) : Prop :=
  ∀ n q, parentOfH s n = some q →
    (childrenOfH s q).get? (indexOfH s n) = some n

theorem length_updN (s : Heap α) (n : Nat) (f : NodeRec α → NodeRec α) :
    (updN s n f).length = s.length := by
  unfold updN
  cases s.get? n with
  | none => rfl
  | some r => simp

theorem getN_updN_self (s : Heap α) (n : Nat) (f : NodeRec α → NodeRec α) :
    getN (updN s n f) n = (getN s n).map f := by
  cases h : s.get? n with
  | none =>
    unfold updN getN
    rw [h]
    exact h
  | some r =>
    rcases List.get?_eq_some.mp h with ⟨hlt, _⟩
    unfold updN getN
    rw [h]
    exact List.get?_set_eq_of_lt (f r) hlt

theorem getN_updN_ne (s : Heap α) (n m : Nat) (f : NodeRec α → NodeRec α)
    (h : m ≠ n) : getN (updN s n f) m = getN s m := by
  unfold updN getN
  cases hg : s.get? n with
  | none => rfl
  | some r => exact List.get?_set_ne (f r) s (fun e => h e.symm)

theorem getN_some_of_lt (s : Heap α) (n : Nat) (h : n < s.length) :
    ∃ r, getN s n = some r := by
  unfold getN
  exact ⟨s.get ⟨n, h⟩, List.get?_eq_get h⟩

theorem getN_lt_of_some (s : Heap α) (n : Nat) (r : NodeRec α)
    (h : getN s n = some r) : n < s.length :=
  (List.get?_eq_some.mp h).1

theorem parentOfH_updN_keep (s : Heap α) (n m : Nat) (f : NodeRec α → NodeRec α)
    (hf : ∀ r, (f r).parent = r.parent) :
    parentOfH (updN s n f) m = parentOfH s m := by
  unfold parentOfH
  by_cases h : m = n
  · subst h
    rw [getN_updN_self]
    cases getN s m <;> simp [hf]
  · rw [getN_updN_ne s n m f h]

theorem indexOfH_updN_keep (s : Heap α) (n m : Nat) (f : NodeRec α → NodeRec α)
    (hf : ∀ r, (f r).index = r.index) :
    indexOfH (updN s n f) m = indexOfH s m := by
  unfold indexOfH
  by_cases h : m = n
  · subst h
    rw [getN_updN_self]
    cases getN s m <;> simp [hf]
  · rw [getN_updN_ne s n m f h]

theorem childrenOfH_updN_keep (s : Heap α) (n q : Nat) (f : NodeRec α → NodeRec α)
    (hf : ∀ r, (f r).children = r.children) :
    childrenOfH (updN s n f) q = childrenOfH s q := by
  unfold childrenOfH
  by_cases h : q = n
  · subst h
    rw [getN_updN_self]
    cases getN s q <;> simp [hf]
  · rw [getN_updN_ne s n q f h]

/-- Last assignment wins: the index an id ends up with after a sequence of
(id, value) assignments, `none` when the id is never assigned. -/
def finalIdx (n : Nat) : List (Nat × Nat) → Option Nat
  | [] => none
  | (m, v) :: rest =>
    match finalIdx n rest with
    | some w => some w
    | none => if m = n then some v else none

theorem getN_setIdxSeq (ps : List (Nat × Nat)) :
    ∀ (s : Heap α) (m : Nat),
      getN (setIdxSeq s ps) m =
        (getN s m).map fun r => { r with index := (finalIdx m ps).getD r.index } := by
  induction ps with
  | nil =>
    intro s m
    rw [setIdxSeq]
    cases h : getN s m with
    | none => rfl
    | some r => rfl
  | cons av rest ih =>
    intro s m
    obtain ⟨a, v⟩ := av
    rw [setIdxSeq, ih]
    by_cases h : m = a
    · subst h
      rw [getN_updN_self]
      cases hg : getN s m with
      | none => rfl
      | some r =>
        refine congrArg some ?_
        rw [finalIdx]
        cases hf : finalIdx m rest with
        | none => simp
        | some w => simp
    · rw [getN_updN_ne s a m _ h]
      cases hg : getN s m with
      | none => rfl
      | some r =>
        refine congrArg some ?_
        rw [finalIdx]
        cases hf : finalIdx m rest with
        | none => simp [Ne.symm h]
        | some w => simp

theorem length_setIdxSeq (ps : List (Nat × Nat)) :
    ∀ s : Heap α, (setIdxSeq s ps).length = s.length := by
  induction ps with
  | nil => intro s; rfl
  | cons av rest ih =>
    intro s
    obtain ⟨a, v⟩ := av
    rw [setIdxSeq, ih, length_updN]

theorem parentOfH_setIdxSeq (ps : List (Nat × Nat)) (s : Heap α) (m : Nat) :
    parentOfH (setIdxSeq s ps) m = parentOfH s m := by
  unfold parentOfH
  rw [getN_setIdxSeq]
  cases getN s m <;> simp

theorem childrenOfH_setIdxSeq (ps : List (Nat × Nat)) (s : Heap α) (q : Nat) :
    childrenOfH (setIdxSeq s ps) q = childrenOfH s q := by
  unfold childrenOfH
  rw [getN_setIdxSeq]
  cases getN s q <;> simp

theorem indexOfH_setIdxSeq (ps : List (Nat × Nat)) (s : Heap α) (m : Nat)
    (r : NodeRec α) (h : getN s m = some r) :
    indexOfH (setIdxSeq s ps) m = (finalIdx m ps).getD r.index := by
  unfold indexOfH
  rw [getN_setIdxSeq, h]
  simp

theorem finalIdx_eq_none (n : Nat) (ps : List (Nat × Nat))
    (h : n ∉ ps.map Prod.fst) : finalIdx n ps = none := by
  induction ps with
  | nil => rfl
  | cons av rest ih =>
    obtain ⟨a, v⟩ := av
    simp only [List.map_cons, List.mem_cons] at h
    push_neg at h
    rw [finalIdx, ih h.2]
    simp [Ne.symm h.1]

theorem finalIdx_unique (n v : Nat) (ps : List (Nat × Nat))
    (hnd : (ps.map Prod.fst).Nodup) (hm : (n, v) ∈ ps) : finalIdx n ps = some v := by
  induction ps with
  | nil => simp at hm
  | cons av rest ih =>
    obtain ⟨a, w⟩ := av
    simp only [List.map_cons, List.nodup_cons] at hnd
    rcases List.mem_cons.mp hm with h | h
    · cases h
      have hnot : n ∉ rest.map Prod.fst := hnd.1
      rw [finalIdx, finalIdx_eq_none n rest hnot]
      simp
    · rw [finalIdx, ih hnd.2 h]

theorem idxPairsFrom_map_fst (l : List Nat) :
    ∀ k, (idxPairsFrom k l).map Prod.fst = l := by
  induction l with
  | nil => intro k; rfl
  | cons n rest ih => intro k; simp [idxPairsFrom, ih (k + 1)]

theorem mem_idxPairsFrom (l : List Nat) :
    ∀ k n v, ((n, v) ∈ idxPairsFrom k l ↔ ∃ j, l.get? j = some n ∧ v = k + j) := by
  induction l with
  | nil =>
    intro k n v
    simp [idxPairsFrom]
  | cons a rest ih =>
    intro k n v
    rw [idxPairsFrom]
    simp only [List.mem_cons, Prod.mk.injEq, ih (k + 1)]
    constructor
    · rintro (⟨rfl, rfl⟩ | ⟨j, hj, rfl⟩)
      · exact ⟨0, by simp⟩
      · exact ⟨j + 1, by simpa using hj, by omega⟩
    · rintro ⟨j, hj, rfl⟩
      match j with
      | 0 =>
        left
        have : a = n := by simpa using hj
        exact ⟨this.symm, by omega⟩
      | j + 1 =>
        right
        exact ⟨j, by simpa using hj, by omega⟩

theorem nodup_get?_inj (l : List Nat) (h : l.Nodup) (i j a : Nat)
    (hi : l.get? i = some a) (hj : l.get? j = some a) : i = j := by
  rcases List.get?_eq_some.mp hi with ⟨hi1, hi2⟩
  rcases List.get?_eq_some.mp hj with ⟨hj1, hj2⟩
  have he : l.get ⟨i, hi1⟩ = l.get ⟨j, hj1⟩ := by rw [hi2, hj2]
  have := (List.Nodup.get_inj_iff h).mp he
  exact congrArg Fin.val this

theorem insertIdx_get?_of_lt (x : Nat) :
    ∀ (k : Nat) (l : List Nat) (i : Nat), i < k →
      (l.insertIdx k x).get? i = l.get? i := by
  intro k
  induction k with
  | zero => intro l i h; omega
  | succ k ih =>
    intro l i h
    match l with
    | [] => rfl
    | b :: l2 =>
      rw [List.insertIdx_succ_cons]
      match i with
      | 0 => rfl
      | i + 1 =>
        simp only [List.get?_cons_succ]
        exact ih l2 i (by omega)

theorem insertIdx_get?_self (x : Nat) :
    ∀ (k : Nat) (l : List Nat), k ≤ l.length →
      (l.insertIdx k x).get? k = some x := by
  intro k
  induction k with
  | zero => intro l h; rfl
  | succ k ih =>
    intro l h
    match l with
    | [] => simp at h
    | b :: l2 =>
      rw [List.insertIdx_succ_cons]
      simp only [List.get?_cons_succ]
      exact ih l2 (by simpa using h)

theorem insertIdx_get?_of_ge (x : Nat) :
    ∀ (k : Nat) (l : List Nat) (i : Nat), k ≤ i → k ≤ l.length →
      (l.insertIdx k x).get? (i + 1) = l.get? i := by
  intro k
  induction k with
  | zero => intro l i _ _; rfl
  | succ k ih =>
    intro l i h hl
    match l with
    | [] => simp at hl
    | b :: l2 =>
      rw [List.insertIdx_succ_cons]
      match i, h with
      | i + 1, _ =>
        simp only [List.get?_cons_succ]
        exact ih l2 i (by omega) (by simpa using hl)

theorem eraseIdx_get?_of_lt :
    ∀ (k : Nat) (l : List Nat) (i : Nat), i < k →
      (l.eraseIdx k).get? i = l.get? i := by
  intro k
  induction k with
  | zero => intro l i h; omega
  | succ k ih =>
    intro l i h
    match l with
    | [] => rfl
    | b :: l2 =>
      rw [List.eraseIdx_cons_succ]
      match i with
      | 0 => rfl
      | i + 1 =>
        simp only [List.get?_cons_succ]
        exact ih l2 i (by omega)

theorem eraseIdx_get?_of_ge :
    ∀ (k : Nat) (l : List Nat) (i : Nat), k ≤ i →
      (l.eraseIdx k).get? i = l.get? (i + 1) := by
  intro k
  induction k with
  | zero =>
    intro l i _
    match l with
    | [] => rfl
    | b :: l2 => rfl
  | succ k ih =>
    intro l i h
    match l with
    | [] => rfl
    | b :: l2 =>
      rw [List.eraseIdx_cons_succ]
      match i, h with
      | i + 1, _ =>
        simp only [List.get?_cons_succ]
        exact ih l2 i (by omega)

theorem invC1b_iff (s : Heap α) :
    invC1b s = true ↔ InvC1 s := by
  unfold invC1b InvC1
  rw [List.all_eq_true]
  constructor
  · intro h n q hp
    have hg : ∃ r, getN s n = some r := by
      rw [parentOfH] at hp
      cases hgn : getN s n with
      | none => rw [hgn] at hp; simp at hp
      | some r => exact ⟨r, rfl⟩
    obtain ⟨r, hr⟩ := hg
    have hn : n < s.length := getN_lt_of_some s n r hr
    have h2 : ((parentOfH s n).all fun q =>
        (childrenOfH s q).get? (indexOfH s n) == some n) = true :=
      h n (List.mem_range.mpr hn)
    rw [hp] at h2
    simpa using h2
  · intro h n hn
    show ((parentOfH s n).all fun q =>
      (childrenOfH s q).get? (indexOfH s n) == some n) = true
    cases hq : parentOfH s n with
    | none => rfl
    | some q =>
      have := h n q hq
      simpa using this

theorem parentMatch_mem (s : Heap α) (h : parentMatchB s = true) (p : Nat)
    (hp : p < s.length) (c : Nat) (hc : c ∈ childrenOfH s p) :
    parentOfH s c = some p := by
  unfold parentMatchB at h
  rw [List.all_eq_true] at h
  have h2 := h p (List.mem_range.mpr hp)
  simp only [List.all_eq_true] at h2
  have h3 := h2 c hc
  simpa using h3

theorem children_sublist_allKids (s : Heap α) (p : Nat) (hp : p < s.length) :
    List.Sublist (childrenOfH s p) (allKids s) := by
  unfold allKids
  have hm : childrenOfH s p ∈ (List.range s.length).map (childrenOfH s) :=
    List.mem_map_of_mem _ (List.mem_range.mpr hp)
  have h2 := List.sublist_flatten_of_mem hm
  simpa [List.flatMap] using h2

theorem nodup_childrenOfH (s : Heap α) (h : (allKids s).Nodup) (p : Nat)
    (hp : p < s.length) : (childrenOfH s p).Nodup :=
  h.sublist (children_sublist_allKids s p hp)

theorem childrenOfH_nil_of_ge (s : Heap α) (p : Nat) (hp : s.length ≤ p) :
    childrenOfH s p = [] := by
  unfold childrenOfH getN
  rw [List.get?_eq_none.mpr hp]
  rfl

theorem parentOfH_updN_ne (s : Heap α) (n m : Nat) (f : NodeRec α → NodeRec α)
    (h : m ≠ n) : parentOfH (updN s n f) m = parentOfH s m := by
  unfold parentOfH
  rw [getN_updN_ne s n m f h]

theorem indexOfH_updN_ne (s : Heap α) (n m : Nat) (f : NodeRec α → NodeRec α)
    (h : m ≠ n) : indexOfH (updN s n f) m = indexOfH s m := by
  unfold indexOfH
  rw [getN_updN_ne s n m f h]

theorem childrenOfH_updN_ne (s : Heap α) (n q : Nat) (f : NodeRec α → NodeRec α)
    (h : q ≠ n) : childrenOfH (updN s n f) q = childrenOfH s q := by
  unfold childrenOfH
  rw [getN_updN_ne s n q f h]

theorem childrenOfH_eq_getN (s : Heap α) (p : Nat) (r : NodeRec α)
    (h : getN s p = some r) : childrenOfH s p = r.children := by
  unfold childrenOfH
  rw [h]
  rfl

theorem indexOfH_eq_getN (s : Heap α) (n : Nat) (r : NodeRec α)
    (h : getN s n = some r) : indexOfH s n = r.index := by
  unfold indexOfH
  rw [h]
  rfl

theorem parentOfH_eq_getN (s : Heap α) (n : Nat) (r : NodeRec α)
    (h : getN s n = some r) : parentOfH s n = r.parent := by
  unfold parentOfH
  rw [h]
  rfl

theorem parentOfH_some_lt (s : Heap α) (c p : Nat) (h : parentOfH s c = some p) :
    c < s.length := by
  rw [parentOfH] at h
  cases hg : getN s c with
  | none => rw [hg] at h; simp at h
  | some r => exact getN_lt_of_some s c r hg

theorem validIds_parent (s : Heap α) (h : validIdsB s = true) (n p : Nat)
    (hp : parentOfH s n = some p) : p < s.length := by
  unfold validIdsB at h
  rw [List.all_eq_true] at h
  have hn : n < s.length := parentOfH_some_lt s n p hp
  have h2 : (((childrenOfH s n).all fun c => decide (c < s.length)) &&
      ((parentOfH s n).all fun q => decide (q < s.length))) = true :=
    h n (List.mem_range.mpr hn)
  rw [hp] at h2
  simp at h2
  exact h2.2

theorem parentOfH_updN_chg (s : Heap α) (n m : Nat) (g : NodeRec α → List Nat) :
    parentOfH (updN s n fun r => { r with children := g r }) m = parentOfH s m :=
  parentOfH_updN_keep s n m _ (fun _ => rfl)

theorem parentOfH_updN_idxg (s : Heap α) (n m : Nat) (g : NodeRec α → Nat) :
    parentOfH (updN s n fun r => { r with index := g r }) m = parentOfH s m :=
  parentOfH_updN_keep s n m _ (fun _ => rfl)

theorem indexOfH_updN_chg (s : Heap α) (n m : Nat) (g : NodeRec α → List Nat) :
    indexOfH (updN s n fun r => { r with children := g r }) m = indexOfH s m :=
  indexOfH_updN_keep s n m _ (fun _ => rfl)

theorem indexOfH_updN_parg (s : Heap α) (n m : Nat) (g : NodeRec α → Option Nat) :
    indexOfH (updN s n fun r => { r with parent := g r }) m = indexOfH s m :=
  indexOfH_updN_keep s n m _ (fun _ => rfl)

theorem childrenOfH_updN_parg (s : Heap α) (n q : Nat) (g : NodeRec α → Option Nat) :
    childrenOfH (updN s n fun r => { r with parent := g r }) q = childrenOfH s q :=
  childrenOfH_updN_keep s n q _ (fun _ => rfl)

theorem childrenOfH_updN_idxg (s : Heap α) (n q : Nat) (g : NodeRec α → Nat) :
    childrenOfH (updN s n fun r => { r with index := g r }) q = childrenOfH s q :=
  childrenOfH_updN_keep s n q _ (fun _ => rfl)

theorem parentOfH_updN_self (s : Heap α) (c : Nat) (rc : NodeRec α)
    (hg : getN s c = some rc) (g : NodeRec α → Option Nat) :
    parentOfH (updN s c fun r => { r with parent := g r }) c = g rc := by
  unfold parentOfH
  rw [getN_updN_self, hg]
  rfl

theorem indexOfH_updN_self (s : Heap α) (c : Nat) (rc : NodeRec α)
    (hg : getN s c = some rc) (g : NodeRec α → Nat) :
    indexOfH (updN s c fun r => { r with index := g r }) c = g rc := by
  unfold indexOfH
  rw [getN_updN_self, hg]
  rfl

theorem childrenOfH_updN_self (s : Heap α) (p : Nat) (rp : NodeRec α)
    (hg : getN s p = some rp) (g : NodeRec α → List Nat) :
    childrenOfH (updN s p fun r => { r with children := g r }) p = g rp := by
  unfold childrenOfH
  rw [getN_updN_self, hg]
  rfl

theorem modelOfH_updN_keep (s : Heap α) (n m : Nat) (f : NodeRec α → NodeRec α)
    (hf : ∀ r, (f r).model = r.model) :
    ((getN (updN s n f) m).map NodeRec.model) = ((getN s m).map NodeRec.model) := by
  by_cases h : m = n
  · subst h
    rw [getN_updN_self]
    cases getN s m <;> simp [hf]
  · rw [getN_updN_ne s n m f h]

theorem modelOfH_updN_chg (s : Heap α) (n m : Nat) (g : NodeRec α → List Nat) :
    ((getN (updN s n fun r => { r with children := g r }) m).map NodeRec.model) =
      ((getN s m).map NodeRec.model) :=
  modelOfH_updN_keep s n m _ (fun _ => rfl)

theorem modelOfH_updN_idxg (s : Heap α) (n m : Nat) (g : NodeRec α → Nat) :
    ((getN (updN s n fun r => { r with index := g r }) m).map NodeRec.model) =
      ((getN s m).map NodeRec.model) :=
  modelOfH_updN_keep s n m _ (fun _ => rfl)

theorem modelOfH_updN_parg (s : Heap α) (n m : Nat) (g : NodeRec α → Option Nat) :
    ((getN (updN s n fun r => { r with parent := g r }) m).map NodeRec.model) =
      ((getN s m).map NodeRec.model) :=
  modelOfH_updN_keep s n m _ (fun _ => rfl)

theorem modelOfH_setIdxSeq (ps : List (Nat × Nat)) (s : Heap α) (m : Nat) :
    ((getN (setIdxSeq s ps) m).map NodeRec.model) = ((getN s m).map NodeRec.model) := by
  rw [getN_setIdxSeq]
  cases getN s m <;> simp

theorem finalIdx_pairs_of_get? (N : List Nat) (k pos n : Nat) (hnd : N.Nodup)
    (hget : N.get? pos = some n) (hk : k ≤ pos) :
    finalIdx n (idxPairsFrom k (N.drop k)) = some pos := by
  apply finalIdx_unique
  · rw [idxPairsFrom_map_fst]
    exact hnd.sublist (List.drop_sublist k N)
  · rw [mem_idxPairsFrom]
    refine ⟨pos - k, ?_, by omega⟩
    rw [List.get?_drop]
    have he : k + (pos - k) = pos := by omega
    rw [he]
    exact hget

theorem finalIdx_pairs_of_not_mem (N : List Nat) (k n : Nat)
    (h : n ∉ N.drop k) : finalIdx n (idxPairsFrom k (N.drop k)) = none := by
  apply finalIdx_eq_none
  rw [idxPairsFrom_map_fst]
  exact h

theorem not_mem_drop_of_get?_lt (N : List Nat) (hnd : N.Nodup) (pos n : Nat)
    (hget : N.get? pos = some n) (k : Nat) (hk : pos < k) : n ∉ N.drop k := by
  intro hmem
  rcases List.mem_iff_get?.mp hmem with ⟨j, hj⟩
  rw [List.get?_drop] at hj
  have := nodup_get?_inj N hnd pos (k + j) n hget hj
  omega

theorem not_mem_drop_of_not_mem (N : List Nat) (k n : Nat) (h : n ∉ N) :
    n ∉ N.drop k :=
  fun hmem => h ((List.drop_sublist k N).mem hmem)

theorem addOp_none_eq (s : Heap α) (p c : Nat) :
    addOp s p c none =
      (updN (updN (updN s c fun r => { r with parent := some p }) c
          fun r => { r with index :=
            (childrenOfH (updN s c fun r => { r with parent := some p }) p).length })
        p fun r => { r with children := r.children ++ [c] }, true) := rfl

theorem addOp_some_eq (s : Heap α) (p c : Nat) (k : Int) :
    addOp s p c (some k) =
      (let s1 := updN s c fun r => { r with parent := some p }
       let len := (childrenOfH s1 p).length
       if k < 0 ∨ (len : Int) < k then (s1, false)
       else
         let s2 := updN s1 p fun r => { r with children := r.children.insertIdx k.toNat c }
         (reindexFrom s2 p k.toNat, true)) := rfl

theorem addOp_fail_eq (s : Heap α) (p c : Nat) (k : Int)
    (hbad : k < 0 ∨ ((childrenOfH s p).length : Int) < k) :
    addOp s p c (some k) = (updN s c fun r => { r with parent := some p }, false) := by
  rw [addOp_some_eq]
  have hch : childrenOfH (updN s c fun r => { r with parent := some p }) p =
      childrenOfH s p :=
    childrenOfH_updN_keep s c p _ (fun r => rfl)
  simp only [hch]
  rw [if_pos hbad]

theorem addOp_insert_eq (s : Heap α) (p c : Nat) (k : Int)
    (h0 : 0 ≤ k) (hlen : k ≤ ((childrenOfH s p).length : Int)) :
    addOp s p c (some k) =
      (reindexFrom
        (updN (updN s c fun r => { r with parent := some p }) p
          fun r => { r with children := r.children.insertIdx k.toNat c })
        p k.toNat, true) := by
  rw [addOp_some_eq]
  have hch : childrenOfH (updN s c fun r => { r with parent := some p }) p =
      childrenOfH s p :=
    childrenOfH_updN_keep s c p _ (fun r => rfl)
  simp only [hch]
  rw [if_neg (by omega)]

theorem addOp_append_parent (s : Heap α) (p c m : Nat) (hc : c < s.length) :
    parentOfH (addOp s p c none).1 m = if m = c then some p else parentOfH s m := by
  obtain ⟨rc, hrc⟩ := getN_some_of_lt s c hc
  rw [addOp_none_eq]
  simp only
  rw [parentOfH_updN_chg, parentOfH_updN_idxg]
  by_cases h : m = c
  · rw [if_pos h, h]
    exact parentOfH_updN_self s c rc hrc _
  · rw [if_neg h]
    exact parentOfH_updN_ne s c m _ h

theorem addOp_append_index (s : Heap α) (p c m : Nat) (hc : c < s.length) :
    indexOfH (addOp s p c none).1 m =
      if m = c then (childrenOfH s p).length else indexOfH s m := by
  rw [addOp_none_eq]
  simp only
  rw [indexOfH_updN_chg]
  have hch : childrenOfH (updN s c fun r => { r with parent := some p }) p =
      childrenOfH s p := childrenOfH_updN_parg s c p _
  by_cases h : m = c
  · rw [if_pos h, h]
    obtain ⟨rc1, hrc1⟩ := getN_some_of_lt (updN s c fun r => { r with parent := some p }) c
      (by rw [length_updN]; exact hc)
    rw [indexOfH_updN_self _ c rc1 hrc1, hch]
  · rw [if_neg h, indexOfH_updN_ne _ c m _ h, indexOfH_updN_parg]

theorem addOp_append_children (s : Heap α) (p c : Nat) (q : Nat) (hp : p < s.length) :
    childrenOfH (addOp s p c none).1 q =
      if q = p then childrenOfH s q ++ [c] else childrenOfH s q := by
  rw [addOp_none_eq]
  simp only
  by_cases h : q = p
  · rw [if_pos h, h]
    obtain ⟨rp2, hrp2⟩ := getN_some_of_lt
      (updN (updN s c fun r => { r with parent := some p }) c
        fun r => { r with index :=
          (childrenOfH (updN s c fun r => { r with parent := some p }) p).length }) p
      (by rw [length_updN, length_updN]; exact hp)
    rw [childrenOfH_updN_self _ p rp2 hrp2]
    have h1 : childrenOfH (updN (updN s c fun r => { r with parent := some p }) c
        fun r => { r with index :=
          (childrenOfH (updN s c fun r => { r with parent := some p }) p).length }) p =
        childrenOfH s p := by
      rw [childrenOfH_updN_idxg, childrenOfH_updN_parg]
    have hrp2' : rp2.children = childrenOfH s p :=
      (childrenOfH_eq_getN _ p rp2 hrp2).symm.trans h1
    rw [hrp2']
  · rw [if_neg h, childrenOfH_updN_ne _ p q _ h, childrenOfH_updN_idxg,
      childrenOfH_updN_parg]

theorem length_addOp_none (s : Heap α) (p c : Nat) :
    (addOp s p c none).1.length = s.length := by
  rw [addOp_none_eq]
  simp only
  rw [length_updN, length_updN, length_updN]

theorem addOp_insert_parent (s : Heap α) (p c m : Nat) (k : Int) (hc : c < s.length)
    (h0 : 0 ≤ k) (hlen : k ≤ ((childrenOfH s p).length : Int)) :
    parentOfH (addOp s p c (some k)).1 m = if m = c then some p else parentOfH s m := by
  obtain ⟨rc, hrc⟩ := getN_some_of_lt s c hc
  rw [addOp_insert_eq s p c k h0 hlen]
  simp only
  rw [reindexFrom, parentOfH_setIdxSeq, parentOfH_updN_chg]
  by_cases h : m = c
  · rw [if_pos h, h]
    exact parentOfH_updN_self s c rc hrc _
  · rw [if_neg h]
    exact parentOfH_updN_ne s c m _ h

theorem addOp_insert_children (s : Heap α) (p c : Nat) (q : Nat) (k : Int)
    (hp : p < s.length) (h0 : 0 ≤ k) (hlen : k ≤ ((childrenOfH s p).length : Int)) :
    childrenOfH (addOp s p c (some k)).1 q =
      if q = p then (childrenOfH s p).insertIdx k.toNat c else childrenOfH s q := by
  rw [addOp_insert_eq s p c k h0 hlen]
  simp only
  rw [reindexFrom, childrenOfH_setIdxSeq]
  by_cases h : q = p
  · rw [if_pos h, h]
    obtain ⟨rp1, hrp1⟩ := getN_some_of_lt (updN s c fun r => { r with parent := some p }) p
      (by rw [length_updN]; exact hp)
    rw [childrenOfH_updN_self _ p rp1 hrp1]
    have h1 : childrenOfH (updN s c fun r => { r with parent := some p }) p =
        childrenOfH s p := childrenOfH_updN_parg s c p _
    have hrp1' : rp1.children = childrenOfH s p :=
      (childrenOfH_eq_getN _ p rp1 hrp1).symm.trans h1
    rw [hrp1']
  · rw [if_neg h, childrenOfH_updN_ne _ p q _ h, childrenOfH_updN_parg]

theorem addOp_insert_index (s : Heap α) (p c m : Nat) (k : Int)
    (hp : p < s.length) (h0 : 0 ≤ k) (hlen : k ≤ ((childrenOfH s p).length : Int))
    (hm : m < s.length) :
    indexOfH (addOp s p c (some k)).1 m =
      (finalIdx m (idxPairsFrom k.toNat
        (((childrenOfH s p).insertIdx k.toNat c).drop k.toNat))).getD (indexOfH s m) := by
  rw [addOp_insert_eq s p c k h0 hlen]
  simp only
  rw [reindexFrom]
  have hch2 : childrenOfH (updN (updN s c fun r => { r with parent := some p }) p
      fun r => { r with children := r.children.insertIdx k.toNat c }) p =
      (childrenOfH s p).insertIdx k.toNat c := by
    obtain ⟨rp1, hrp1⟩ := getN_some_of_lt (updN s c fun r => { r with parent := some p }) p
      (by rw [length_updN]; exact hp)
    rw [childrenOfH_updN_self _ p rp1 hrp1]
    have h1 : childrenOfH (updN s c fun r => { r with parent := some p }) p =
        childrenOfH s p := childrenOfH_updN_parg s c p _
    rw [(childrenOfH_eq_getN _ p rp1 hrp1).symm.trans h1]
  rw [hch2]
  have hm2 : m < (updN (updN s c fun r => { r with parent := some p }) p
      fun r => { r with children := r.children.insertIdx k.toNat c }).length := by
    rw [length_updN, length_updN]; exact hm
  obtain ⟨rm2, hrm2⟩ := getN_some_of_lt _ m hm2
  rw [indexOfH_setIdxSeq _ _ m rm2 hrm2]
  have i1 : indexOfH (updN (updN s c fun r => { r with parent := some p }) p
      fun r => { r with children := r.children.insertIdx k.toNat c }) m = indexOfH s m := by
    rw [indexOfH_updN_chg, indexOfH_updN_parg]
  rw [← i1, indexOfH_eq_getN _ m rm2 hrm2]

theorem length_addOp_insert (s : Heap α) (p c : Nat) (k : Int)
    (h0 : 0 ≤ k) (hlen : k ≤ ((childrenOfH s p).length : Int)) :
    (addOp s p c (some k)).1.length = s.length := by
  rw [addOp_insert_eq s p c k h0 hlen]
  simp only
  rw [reindexFrom, length_setIdxSeq, length_updN, length_updN]

theorem dropOp_invalid (s : Heap α) (n : Nat) (hg : getN s n = none) :
    dropOp s n = s := by
  unfold dropOp
  rw [hg]

theorem dropOp_root (s : Heap α) (n : Nat) (r : NodeRec α) (hg : getN s n = some r)
    (hr : r.parent = none) : dropOp s n = s := by
  simp only [dropOp, hg, hr]

theorem dropOp_eq (s : Heap α) (n p : Nat) (r : NodeRec α) (hg : getN s n = some r)
    (hp : r.parent = some p) :
    dropOp s n =
      updN (updN (reindexFrom
          (updN s p fun pr => { pr with children := pr.children.eraseIdx r.index })
          p r.index) n fun nr => { nr with parent := none }) n
        fun nr => { nr with index := 0 } := by
  simp only [dropOp, hg, hp]

theorem dropOp_children (s : Heap α) (n p : Nat) (r : NodeRec α) (hg : getN s n = some r)
    (hp : r.parent = some p) (hplt : p < s.length) (q : Nat) :
    childrenOfH (dropOp s n) q =
      if q = p then (childrenOfH s p).eraseIdx r.index else childrenOfH s q := by
  rw [dropOp_eq s n p r hg hp, childrenOfH_updN_idxg, childrenOfH_updN_parg,
    reindexFrom, childrenOfH_setIdxSeq]
  by_cases h : q = p
  · rw [if_pos h, h]
    obtain ⟨rp, hrp⟩ := getN_some_of_lt s p hplt
    rw [childrenOfH_updN_self _ p rp hrp]
    rw [childrenOfH_eq_getN s p rp hrp]
  · rw [if_neg h]
    exact childrenOfH_updN_ne _ p q _ h

theorem dropOp_parent_self (s : Heap α) (n p : Nat) (r : NodeRec α)
    (hg : getN s n = some r) (hp : r.parent = some p) :
    parentOfH (dropOp s n) n = none := by
  rw [dropOp_eq s n p r hg hp, parentOfH_updN_idxg]
  have hn : n < (reindexFrom
      (updN s p fun pr => { pr with children := pr.children.eraseIdx r.index })
      p r.index).length := by
    rw [reindexFrom, length_setIdxSeq, length_updN]
    exact getN_lt_of_some s n r hg
  obtain ⟨rn, hrn⟩ := getN_some_of_lt _ n hn
  exact parentOfH_updN_self _ n rn hrn _

theorem dropOp_index_self (s : Heap α) (n p : Nat) (r : NodeRec α)
    (hg : getN s n = some r) (hp : r.parent = some p) :
    indexOfH (dropOp s n) n = 0 := by
  rw [dropOp_eq s n p r hg hp]
  have hn : n < (updN (reindexFrom
      (updN s p fun pr => { pr with children := pr.children.eraseIdx r.index })
      p r.index) n fun nr => { nr with parent := none }).length := by
    rw [length_updN, reindexFrom, length_setIdxSeq, length_updN]
    exact getN_lt_of_some s n r hg
  obtain ⟨rn, hrn⟩ := getN_some_of_lt _ n hn
  exact indexOfH_updN_self _ n rn hrn _

theorem dropOp_parent_other (s : Heap α) (n p : Nat) (r : NodeRec α)
    (hg : getN s n = some r) (hp : r.parent = some p) (m : Nat) (hm : m ≠ n) :
    parentOfH (dropOp s n) m = parentOfH s m := by
  rw [dropOp_eq s n p r hg hp, parentOfH_updN_idxg, parentOfH_updN_ne _ n m _ hm,
    reindexFrom, parentOfH_setIdxSeq, parentOfH_updN_chg]

theorem dropOp_index_other (s : Heap α) (n p : Nat) (r : NodeRec α)
    (hg : getN s n = some r) (hp : r.parent = some p) (hplt : p < s.length)
    (m : Nat) (hm : m ≠ n) (hmlt : m < s.length) :
    indexOfH (dropOp s n) m =
      (finalIdx m (idxPairsFrom r.index
        (((childrenOfH s p).eraseIdx r.index).drop r.index))).getD (indexOfH s m) := by
  rw [dropOp_eq s n p r hg hp, indexOfH_updN_ne _ n m _ hm, indexOfH_updN_ne _ n m _ hm,
    reindexFrom]
  have hch1 : childrenOfH (updN s p fun pr =>
      { pr with children := pr.children.eraseIdx r.index }) p =
      (childrenOfH s p).eraseIdx r.index := by
    obtain ⟨rp, hrp⟩ := getN_some_of_lt s p hplt
    rw [childrenOfH_updN_self _ p rp hrp, childrenOfH_eq_getN s p rp hrp]
  rw [hch1]
  have hm1 : m < (updN s p fun pr =>
      { pr with children := pr.children.eraseIdx r.index }).length := by
    rw [length_updN]; exact hmlt
  obtain ⟨rm1, hrm1⟩ := getN_some_of_lt _ m hm1
  rw [indexOfH_setIdxSeq _ _ m rm1 hrm1]
  have i1 : indexOfH (updN s p fun pr =>
      { pr with children := pr.children.eraseIdx r.index }) m = indexOfH s m :=
    indexOfH_updN_chg s p m _
  rw [← i1, indexOfH_eq_getN _ m rm1 hrm1]

theorem dropOp_model (s : Heap α) (n : Nat) (m : Nat) :
    ((getN (dropOp s n) m).map NodeRec.model) = ((getN s m).map NodeRec.model) := by
  cases hg : getN s n with
  | none => rw [dropOp_invalid s n hg]
  | some r =>
    cases hp : r.parent with
    | none => rw [dropOp_root s n r hg hp]
    | some p =>
      rw [dropOp_eq s n p r hg hp, modelOfH_updN_idxg, modelOfH_updN_parg,
        reindexFrom, modelOfH_setIdxSeq, modelOfH_updN_chg]

theorem length_dropOp (s : Heap α) (n : Nat) : (dropOp s n).length = s.length := by
  cases hg : getN s n with
  | none => rw [dropOp_invalid s n hg]
  | some r =>
    cases hp : r.parent with
    | none => rw [dropOp_root s n r hg hp]
    | some p =>
      rw [dropOp_eq s n p r hg hp, length_updN, length_updN, reindexFrom,
        length_setIdxSeq, length_updN]

theorem lt_length_of_children_ne_nil (s : Heap α) (p : Nat)
    (h : childrenOfH s p ≠ []) : p < s.length := by
  by_contra hc
  exact h (childrenOfH_nil_of_ge s p (by omega))

theorem swapOp_def_eq (s : Heap α) (p : Nat) (i j : Int) :
    swapOp s p i j =
      (if i < 0 ∨ j < 0 ∨ ((childrenOfH s p).length : Int) ≤ i ∨
          ((childrenOfH s p).length : Int) ≤ j then (s, false)
       else if i = j then (s, true)
       else
         match (childrenOfH s p).get? i.toNat, (childrenOfH s p).get? j.toNat with
         | some ci, some cj =>
           (updN (updN (updN s p fun r =>
              { r with children := (r.children.set i.toNat cj).set j.toNat ci })
              cj fun r => { r with index := i.toNat })
              ci fun r => { r with index := j.toNat }, true)
         | _, _ => (s, false)) := rfl

theorem swapOp_eq_fail (s : Heap α) (p : Nat) (i j : Int)
    (hbad : i < 0 ∨ j < 0 ∨ ((childrenOfH s p).length : Int) ≤ i ∨
      ((childrenOfH s p).length : Int) ≤ j) :
    swapOp s p i j = (s, false) := by
  rw [swapOp_def_eq, if_pos hbad]

theorem swapOp_eq_same (s : Heap α) (p : Nat) (i j : Int)
    (hok : ¬(i < 0 ∨ j < 0 ∨ ((childrenOfH s p).length : Int) ≤ i ∨
      ((childrenOfH s p).length : Int) ≤ j)) (hij : i = j) :
    swapOp s p i j = (s, true) := by
  rw [swapOp_def_eq, if_neg hok, if_pos hij]

theorem swapOp_eq_success (s : Heap α) (p : Nat) (i j : Int)
    (hok : ¬(i < 0 ∨ j < 0 ∨ ((childrenOfH s p).length : Int) ≤ i ∨
      ((childrenOfH s p).length : Int) ≤ j)) (hij : ¬i = j)
    (ci cj : Nat)
    (hi : (childrenOfH s p).get? i.toNat = some ci)
    (hj : (childrenOfH s p).get? j.toNat = some cj) :
    swapOp s p i j = (updN (updN (updN s p fun r =>
      { r with children := (r.children.set i.toNat cj).set j.toNat ci })
      cj fun r => { r with index := i.toNat })
      ci fun r => { r with index := j.toNat }, true) := by
  rw [swapOp_def_eq, if_neg hok, if_neg hij, hi, hj]

theorem swap_succ_parent (s : Heap α) (p : Nat) (i j : Int) (ci cj m : Nat) :
    parentOfH (updN (updN (updN s p fun r =>
      { r with children := (r.children.set i.toNat cj).set j.toNat ci })
      cj fun r => { r with index := i.toNat })
      ci fun r => { r with index := j.toNat }) m = parentOfH s m := by
  rw [parentOfH_updN_idxg, parentOfH_updN_idxg, parentOfH_updN_chg]

theorem swap_succ_children (s : Heap α) (p : Nat) (i j : Int) (ci cj : Nat)
    (hplt : p < s.length) (q : Nat) :
    childrenOfH (updN (updN (updN s p fun r =>
      { r with children := (r.children.set i.toNat cj).set j.toNat ci })
      cj fun r => { r with index := i.toNat })
      ci fun r => { r with index := j.toNat }) q =
      if q = p then ((childrenOfH s p).set i.toNat cj).set j.toNat ci
      else childrenOfH s q := by
  rw [childrenOfH_updN_idxg, childrenOfH_updN_idxg]
  by_cases h : q = p
  · rw [if_pos h, h]
    obtain ⟨rp, hrp⟩ := getN_some_of_lt s p hplt
    rw [childrenOfH_updN_self _ p rp hrp, childrenOfH_eq_getN s p rp hrp]
  · rw [if_neg h]
    exact childrenOfH_updN_ne _ p q _ h

theorem swap_succ_index (s : Heap α) (p : Nat) (i j : Int) (ci cj m : Nat)
    (hci : ci < s.length) (hcj : cj < s.length) :
    indexOfH (updN (updN (updN s p fun r =>
      { r with children := (r.children.set i.toNat cj).set j.toNat ci })
      cj fun r => { r with index := i.toNat })
      ci fun r => { r with index := j.toNat }) m =
      if m = ci then j.toNat else if m = cj then i.toNat else indexOfH s m := by
  by_cases h1 : m = ci
  · rw [if_pos h1, h1]
    have hlt : ci < (updN (updN s p fun r =>
        { r with children := (r.children.set i.toNat cj).set j.toNat ci })
        cj fun r => { r with index := i.toNat }).length := by
      rw [length_updN, length_updN]; exact hci
    obtain ⟨rc, hrc⟩ := getN_some_of_lt _ ci hlt
    exact indexOfH_updN_self _ ci rc hrc _
  · rw [if_neg h1, indexOfH_updN_ne _ ci m _ h1]
    by_cases h2 : m = cj
    · rw [if_pos h2, h2]
      have hlt : cj < (updN s p fun r =>
          { r with children := (r.children.set i.toNat cj).set j.toNat ci }).length := by
        rw [length_updN]; exact hcj
      obtain ⟨rc, hrc⟩ := getN_some_of_lt _ cj hlt
      exact indexOfH_updN_self _ cj rc hrc _
    · rw [if_neg h2, indexOfH_updN_ne _ cj m _ h2]
      exact indexOfH_updN_chg s p m _

theorem idx_setIdx (t : Tree α) (i : Nat) : (t.setIdx i).idx = i := by
  cases t
  rfl

theorem wellIdx_setIdx (t : Tree α) (i : Nat) : wellIdx (t.setIdx i) = wellIdx t := by
  cases t
  rfl

mutual

theorem wellIdx_cloneT (t : Tree α) : wellIdx (cloneT t) = true := by
  cases t with
  | node m i cs =>
    rw [cloneT, wellIdx]
    exact wellIdx_cloneList cs 0

theorem wellIdx_cloneList (cs : List (Tree α)) : ∀ i, wellIdxFrom i (cloneList i cs) = true := by
  cases cs with
  | nil => intro i; rfl
  | cons c cs2 =>
    intro i
    rw [cloneList, wellIdxFrom, idx_setIdx, wellIdx_setIdx, wellIdx_cloneT c,
      wellIdx_cloneList cs2 (i + 1)]
    simp

end

mutual

theorem wellIdx_mapT (cb : Tree α → β) (t : Tree α) : wellIdx (mapT cb t) = true := by
  cases t with
  | node m i cs =>
    rw [mapT, wellIdx]
    exact wellIdx_mapList cb cs 0

theorem wellIdx_mapList (cb : Tree α → β) (cs : List (Tree α)) :
    ∀ i, wellIdxFrom i (mapList cb i cs) = true := by
  cases cs with
  | nil => intro i; rfl
  | cons c cs2 =>
    intro i
    rw [mapList, wellIdxFrom, idx_setIdx, wellIdx_setIdx, wellIdx_mapT cb c,
      wellIdx_mapList cb cs2 (i + 1)]
    simp

end

theorem invC1_addOp_none (s : Heap α) (p c : Nat) (hp : p < s.length)
    (hc : c < s.length) (hinv : InvC1 s) : InvC1 (addOp s p c none).1 := by
  intro n q hpar
  rw [addOp_append_parent s p c n hc] at hpar
  rw [addOp_append_children s p c q hp, addOp_append_index s p c n hc]
  by_cases hn : n = c
  · rw [if_pos hn] at hpar ⊢
    have hq : q = p := (Option.some.inj hpar).symm
    rw [if_pos hq, hq, hn]
    exact List.get?_concat_length _ c
  · rw [if_neg hn] at hpar ⊢
    have old_inv := hinv n q hpar
    by_cases hq : q = p
    · rw [if_pos hq, hq]
      rw [hq] at old_inv
      have hlt : indexOfH s n < (childrenOfH s p).length := (List.get?_eq_some.mp old_inv).1
      rw [List.get?_append hlt]
      exact old_inv
    · rw [if_neg hq]
      exact old_inv

theorem invC1_addOp_insert (s : Heap α) (p c : Nat) (k : Int) (hp : p < s.length)
    (hc : c < s.length) (h0 : 0 ≤ k) (hlen : k ≤ ((childrenOfH s p).length : Int))
    (hinv : InvC1 s) (hpm : parentMatchB s = true) (hnd : (allKids s).Nodup)
    (hcroot : parentOfH s c = none) :
    InvC1 (addOp s p c (some k)).1 := by
  have hk'le : k.toNat ≤ (childrenOfH s p).length := by omega
  have holdnd : (childrenOfH s p).Nodup := nodup_childrenOfH s hnd p hp
  have hcold : c ∉ childrenOfH s p := by
    intro hmem
    have h2 := parentMatch_mem s hpm p hp c hmem
    rw [hcroot] at h2
    exact Option.noConfusion h2
  have hNnd : ((childrenOfH s p).insertIdx k.toNat c).Nodup := by
    have hperm := List.perm_insertIdx c (childrenOfH s p) hk'le
    rw [hperm.nodup_iff]
    exact List.nodup_cons.mpr ⟨hcold, holdnd⟩
  intro n q hpar
  rw [addOp_insert_parent s p c n k hc h0 hlen] at hpar
  rw [addOp_insert_children s p c q k hp h0 hlen]
  by_cases hn : n = c
  · rw [if_pos hn] at hpar
    have hq : q = p := (Option.some.inj hpar).symm
    rw [if_pos hq]
    rw [addOp_insert_index s p c n k hp h0 hlen (by rw [hn]; exact hc)]
    have hcN : ((childrenOfH s p).insertIdx k.toNat c).get? k.toNat = some c :=
      insertIdx_get?_self c k.toNat (childrenOfH s p) hk'le
    have hfi := finalIdx_pairs_of_get? ((childrenOfH s p).insertIdx k.toNat c)
      k.toNat k.toNat c hNnd hcN le_rfl
    rw [hn, hfi]
    simpa using hcN
  · rw [if_neg hn] at hpar
    have old_inv := hinv n q hpar
    have hnlt : n < s.length := parentOfH_some_lt s n q hpar
    rw [addOp_insert_index s p c n k hp h0 hlen hnlt]
    by_cases hq : q = p
    · rw [if_pos hq]
      rw [hq] at old_inv
      have hi0lt : indexOfH s n < (childrenOfH s p).length := (List.get?_eq_some.mp old_inv).1
      by_cases hcase : indexOfH s n < k.toNat
      · have hNi : ((childrenOfH s p).insertIdx k.toNat c).get? (indexOfH s n) = some n :=
          (insertIdx_get?_of_lt c k.toNat (childrenOfH s p) (indexOfH s n) hcase).trans old_inv
        have hnot := not_mem_drop_of_get?_lt _ hNnd (indexOfH s n) n hNi k.toNat hcase
        rw [finalIdx_pairs_of_not_mem _ k.toNat n hnot]
        simpa using hNi
      · have hge : k.toNat ≤ indexOfH s n := by omega
        have hNi : ((childrenOfH s p).insertIdx k.toNat c).get? (indexOfH s n + 1) = some n :=
          (insertIdx_get?_of_ge c k.toNat (childrenOfH s p) (indexOfH s n) hge hk'le).trans
            old_inv
        have hfi := finalIdx_pairs_of_get? _ k.toNat (indexOfH s n + 1) n hNnd hNi (by omega)
        rw [hfi]
        simpa using hNi
    · rw [if_neg hq]
      have hnotN : n ∉ (childrenOfH s p).insertIdx k.toNat c := by
        intro hmem
        rcases (List.mem_insertIdx hk'le).mp hmem with h | h
        · exact hn h
        · have h2 := parentMatch_mem s hpm p hp n h
          rw [hpar] at h2
          exact hq (Option.some.inj h2)
      rw [finalIdx_pairs_of_not_mem _ k.toNat n
        (not_mem_drop_of_not_mem _ k.toNat n hnotN)]
      simpa using old_inv

theorem invC1_dropOp (s : Heap α) (nd : Nat) (hinv : InvC1 s)
    (hvalid : validIdsB s = true) (hpm : parentMatchB s = true)
    (hnd : (allKids s).Nodup) : InvC1 (dropOp s nd) := by
  cases hg : getN s nd with
  | none => rw [dropOp_invalid s nd hg]; exact hinv
  | some r =>
    cases hpr : r.parent with
    | none => rw [dropOp_root s nd r hg hpr]; exact hinv
    | some p =>
      have hpnd : parentOfH s nd = some p := by
        rw [parentOfH_eq_getN s nd r hg]; exact hpr
      have hplt : p < s.length := validIds_parent s hvalid nd p hpnd
      have holdnd := nodup_childrenOfH s hnd p hplt
      have hNnd : ((childrenOfH s p).eraseIdx r.index).Nodup :=
        holdnd.sublist (List.eraseIdx_sublist (childrenOfH s p) r.index)
      have hold_idx : (childrenOfH s p).get? r.index = some nd := by
        have h2 := hinv nd p hpnd
        rw [indexOfH_eq_getN s nd r hg] at h2
        exact h2
      intro n q hpar
      by_cases hn : n = nd
      · rw [hn, dropOp_parent_self s nd p r hg hpr] at hpar
        exact Option.noConfusion hpar
      · rw [dropOp_parent_other s nd p r hg hpr n hn] at hpar
        have old_inv := hinv n q hpar
        have hnlt := parentOfH_some_lt s n q hpar
        rw [dropOp_children s nd p r hg hpr hplt q,
          dropOp_index_other s nd p r hg hpr hplt n hn hnlt]
        by_cases hq : q = p
        · rw [if_pos hq]
          rw [hq] at old_inv
          have hi0lt : indexOfH s n < (childrenOfH s p).length :=
            (List.get?_eq_some.mp old_inv).1
          have hi0ne : indexOfH s n ≠ r.index := by
            intro e
            rw [e, hold_idx] at old_inv
            exact hn (Option.some.inj old_inv).symm
          by_cases hcase : indexOfH s n < r.index
          · have hNi : ((childrenOfH s p).eraseIdx r.index).get? (indexOfH s n) = some n :=
              (eraseIdx_get?_of_lt r.index (childrenOfH s p) (indexOfH s n) hcase).trans
                old_inv
            have hnot := not_mem_drop_of_get?_lt _ hNnd (indexOfH s n) n hNi r.index hcase
            rw [finalIdx_pairs_of_not_mem _ r.index n hnot]
            simpa using hNi
          · have hgt : r.index < indexOfH s n := by omega
            have hNi : ((childrenOfH s p).eraseIdx r.index).get? (indexOfH s n - 1) =
                some n := by
              rw [eraseIdx_get?_of_ge r.index (childrenOfH s p) (indexOfH s n - 1) (by omega)]
              have e : indexOfH s n - 1 + 1 = indexOfH s n := by omega
              rw [e]
              exact old_inv
            have hfi := finalIdx_pairs_of_get? _ r.index (indexOfH s n - 1) n hNnd hNi
              (by omega)
            rw [hfi]
            simpa using hNi
        · rw [if_neg hq]
          have hnotN : n ∉ (childrenOfH s p).eraseIdx r.index := by
            intro hmem
            have hmemold : n ∈ childrenOfH s p :=
              (List.eraseIdx_sublist (childrenOfH s p) r.index).mem hmem
            have h2 := parentMatch_mem s hpm p hplt n hmemold
            rw [hpar] at h2
            exact hq (Option.some.inj h2)
          rw [finalIdx_pairs_of_not_mem _ r.index n
            (not_mem_drop_of_not_mem _ r.index n hnotN)]
          simpa using old_inv

theorem invC1_swapOp (s : Heap α) (p : Nat) (i j : Int) (hinv : InvC1 s)
    (hpm : parentMatchB s = true) (hnd : (allKids s).Nodup) :
    InvC1 (swapOp s p i j).1 := by
  by_cases hbad : i < 0 ∨ j < 0 ∨ ((childrenOfH s p).length : Int) ≤ i ∨
      ((childrenOfH s p).length : Int) ≤ j
  · rw [swapOp_eq_fail s p i j hbad]; exact hinv
  · by_cases hij : i = j
    · rw [swapOp_eq_same s p i j hbad hij]; exact hinv
    · have hbad2 := hbad
      push_neg at hbad2
      obtain ⟨hi0, hj0, hilen, hjlen⟩ := hbad2
      have hilt : i.toNat < (childrenOfH s p).length := by omega
      have hjlt : j.toNat < (childrenOfH s p).length := by omega
      obtain ⟨ci, hi⟩ : ∃ ci, (childrenOfH s p).get? i.toNat = some ci := by
        cases hgi : (childrenOfH s p).get? i.toNat with
        | none => rw [List.get?_eq_none] at hgi; omega
        | some x => exact ⟨x, rfl⟩
      obtain ⟨cj, hj⟩ : ∃ cj, (childrenOfH s p).get? j.toNat = some cj := by
        cases hgj : (childrenOfH s p).get? j.toNat with
        | none => rw [List.get?_eq_none] at hgj; omega
        | some x => exact ⟨x, rfl⟩
      have hplt : p < s.length := by
        apply lt_length_of_children_ne_nil s p
        intro e
        rw [e] at hilt
        simp at hilt
      have hcsnd := nodup_childrenOfH s hnd p hplt
      have hij2 : i.toNat ≠ j.toNat := by omega
      have hcip : parentOfH s ci = some p :=
        parentMatch_mem s hpm p hplt ci (List.get?_mem hi)
      have hcjp : parentOfH s cj = some p :=
        parentMatch_mem s hpm p hplt cj (List.get?_mem hj)
      have hcilt : ci < s.length := parentOfH_some_lt s ci p hcip
      have hcjlt : cj < s.length := parentOfH_some_lt s cj p hcjp
      have hfst : (swapOp s p i j).1 = updN (updN (updN s p fun r =>
          { r with children := (r.children.set i.toNat cj).set j.toNat ci })
          cj fun r => { r with index := i.toNat })
          ci fun r => { r with index := j.toNat } := by
        rw [swapOp_eq_success s p i j hbad hij ci cj hi hj]
      intro n q hpar
      rw [hfst, swap_succ_parent] at hpar
      rw [hfst, swap_succ_children s p i j ci cj hplt q,
        swap_succ_index s p i j ci cj n hcilt hcjlt]
      have old_inv := hinv n q hpar
      by_cases hq : q = p
      · rw [if_pos hq]
        rw [hq] at old_inv
        by_cases h1 : n = ci
        · rw [if_pos h1, h1]
          have hlen1 : j.toNat < ((childrenOfH s p).set i.toNat cj).length := by
            rw [List.length_set]; omega
          exact List.get?_set_eq_of_lt ci hlen1
        · rw [if_neg h1]
          by_cases h2 : n = cj
          · rw [if_pos h2, h2]
            rw [List.get?_set_ne ci _ (Ne.symm hij2)]
            exact List.get?_set_eq_of_lt cj hilt
          · rw [if_neg h2]
            have hne1 : indexOfH s n ≠ i.toNat := by
              intro e
              have h3 : (childrenOfH s p).get? (indexOfH s n) = some ci := by
                rw [e]; exact hi
              exact h1 (Option.some.inj (old_inv.symm.trans h3))
            have hne2 : indexOfH s n ≠ j.toNat := by
              intro e
              have h3 : (childrenOfH s p).get? (indexOfH s n) = some cj := by
                rw [e]; exact hj
              exact h2 (Option.some.inj (old_inv.symm.trans h3))
            rw [List.get?_set_ne ci _ (Ne.symm hne2), List.get?_set_ne cj _ (Ne.symm hne1)]
            exact old_inv
      · rw [if_neg hq]
        have hn1 : n ≠ ci := by
          intro e
          rw [e] at hpar
          exact hq (Option.some.inj (hpar.symm.trans hcip))
        have hn2 : n ≠ cj := by
          intro e
          rw [e] at hpar
          exact hq (Option.some.inj (hpar.symm.trans hcjp))
        rw [if_neg hn1, if_neg hn2]
        exact old_inv

/-- C1: after every mutating operation that returns normally on a
tree-shaped object graph, every non-root node is found in its parent's
children list at its cached sibling index — `add` (append or validated
insert of a detached node), `drop` and `swap` preserve the invariant on the
heap, and `clone` and `map` build trees whose every child's cached index is
its sibling position. -/
theorem c1_index_invariant :
    (∀ (α : Type) (s : Heap α) (p c : Nat) (k : Option Int), WFp s →
        p < s.length → c < s.length → parentOfH s c = none →
        (addOp s p c k).2 = true → invC1b (addOp s p c k).1 = true) ∧
    (∀ (α : Type) (s : Heap α) (n : Nat), WFp s → invC1b (dropOp s n) = true) ∧
    (∀ (α : Type) (s : Heap α) (p : Nat) (i j : Int), WFp s →
        invC1b (swapOp s p i j).1 = true) ∧
    (∀ (α : Type) (t : Tree α), wellIdx (cloneT t) = true) ∧
    (∀ (α β : Type) (cb : Tree α → β) (t : Tree α), wellIdx (mapT cb t) = true) := by
  refine ⟨?_, ?_, ?_, ?_, ?_⟩
  · intro α s p c k hWF hp hc hcroot hsucc
    obtain ⟨hv, hib, hpm, hnd⟩ := hWF
    have hinv := (invC1b_iff s).mp hib
    rw [invC1b_iff]
    cases k with
    | none => exact invC1_addOp_none s p c hp hc hinv
    | some k =>
      by_cases hbad : k < 0 ∨ ((childrenOfH s p).length : Int) < k
      · rw [addOp_fail_eq s p c k hbad] at hsucc
        simp at hsucc
      · push_neg at hbad
        exact invC1_addOp_insert s p c k hp hc hbad.1 hbad.2 hinv hpm hnd hcroot
  · intro α s n hWF
    obtain ⟨hv, hib, hpm, hnd⟩ := hWF
    rw [invC1b_iff]
    exact invC1_dropOp s n ((invC1b_iff s).mp hib) hv hpm hnd
  · intro α s p i j hWF
    obtain ⟨hv, hib, hpm, hnd⟩ := hWF
    rw [invC1b_iff]
    exact invC1_swapOp s p i j ((invC1b_iff s).mp hib) hpm hnd
  · intro α t
    exact wellIdx_cloneT t
  · intro α β cb t
    exact wellIdx_mapT cb t

/-- Example heap: node 0 is a root with single child node 1; node 2 is a
detached root. -/
def exHeap : Heap Nat :=
  [⟨10, none, 0, [1]⟩, ⟨11, some 0, 0, []⟩, ⟨12, none, 0, []⟩]

/-- Witness for C1 on the example heap and the fixture tree. -/
theorem c1_witness :
    (WFp exHeap ∧ 0 < exHeap.length ∧ 2 < exHeap.length ∧
      parentOfH exHeap 2 = none ∧ (addOp exHeap 0 2 (some 1)).2 = true) ∧
    invC1b (addOp exHeap 0 2 (some 1)).1 = true ∧
    invC1b (dropOp exHeap 1) = true ∧
    invC1b (swapOp exHeap 0 0 0).1 = true ∧
    wellIdx (cloneT fixN) = true ∧
    wellIdx (mapT Tree.model fixN) = true :=
  ⟨⟨by decide, by decide, by decide, by decide, by decide⟩,
    c1_index_invariant.1 Nat exHeap 0 2 (some 1) (by decide) (by decide) (by decide)
      (by decide) (by decide),
    c1_index_invariant.2.1 Nat exHeap 1 (by decide),
    c1_index_invariant.2.2.1 Nat exHeap 0 0 0 (by decide),
    c1_index_invariant.2.2.2.1 Nat fixN,
    c1_index_invariant.2.2.2.2 Nat Nat Tree.model fixN⟩

/-- C8: `drop` on a root (or a node with no record) is a no-op leaving the
heap unchanged; on a non-root node of a tree-shaped heap it removes exactly
that node from its parent's children at its cached index, leaves every
other children list alone, clears the dropped node's parent pointer and
resets its index to 0, leaves every other node's parent and every payload
alone, keeps the index of earlier siblings and of nodes outside the
parent's children, and shifts the index of siblings at or after the removed
position down by one. -/
theorem c8_drop_behavior :
    (∀ (α : Type) (s : Heap α) (n : Nat) (r : NodeRec α),
        getN s n = some r → r.parent = none → dropOp s n = s) ∧
    (∀ (α : Type) (s : Heap α) (n p : Nat) (r : NodeRec α), WFp s →
        getN s n = some r → r.parent = some p →
        childrenOfH (dropOp s n) p = (childrenOfH s p).eraseIdx r.index ∧
        (∀ q, q ≠ p → childrenOfH (dropOp s n) q = childrenOfH s q) ∧
        parentOfH (dropOp s n) n = none ∧
        indexOfH (dropOp s n) n = 0 ∧
        (∀ m, m ≠ n → parentOfH (dropOp s n) m = parentOfH s m) ∧
        (∀ m, ((getN (dropOp s n) m).map NodeRec.model) =
          ((getN s m).map NodeRec.model)) ∧
        (∀ m rm, m ≠ n → getN s m = some rm → rm.parent = some p →
            rm.index < r.index → indexOfH (dropOp s n) m = rm.index) ∧
        (∀ m rm, m ≠ n → getN s m = some rm → rm.parent = some p →
            r.index < rm.index → indexOfH (dropOp s n) m = rm.index - 1) ∧
        (∀ m rm, m ≠ n → getN s m = some rm → rm.parent ≠ some p →
            indexOfH (dropOp s n) m = rm.index)) := by
  constructor
  · intro α s n r hg hr
    exact dropOp_root s n r hg hr
  · intro α s n p r hWF hg hp
    obtain ⟨hv, hib, hpm, hnd⟩ := hWF
    have hinv := (invC1b_iff s).mp hib
    have hpn : parentOfH s n = some p := by
      rw [parentOfH_eq_getN s n r hg]; exact hp
    have hplt : p < s.length := validIds_parent s hv n p hpn
    have holdnd := nodup_childrenOfH s hnd p hplt
    have hNnd : ((childrenOfH s p).eraseIdx r.index).Nodup :=
      holdnd.sublist (List.eraseIdx_sublist (childrenOfH s p) r.index)
    refine ⟨?_, ?_, ?_, ?_, ?_, ?_, ?_, ?_, ?_⟩
    · rw [dropOp_children s n p r hg hp hplt p, if_pos rfl]
    · intro q hq
      rw [dropOp_children s n p r hg hp hplt q, if_neg hq]
    · exact dropOp_parent_self s n p r hg hp
    · exact dropOp_index_self s n p r hg hp
    · intro m hm
      exact dropOp_parent_other s n p r hg hp m hm
    · intro m
      exact dropOp_model s n m
    · intro m rm hm hgm hpm2 hlt
      have hmlt := getN_lt_of_some s m rm hgm
      rw [dropOp_index_other s n p r hg hp hplt m hm hmlt]
      have hmi : (childrenOfH s p).get? rm.index = some m := by
        have h2 := hinv m p (by rw [parentOfH_eq_getN s m rm hgm]; exact hpm2)
        rw [indexOfH_eq_getN s m rm hgm] at h2
        exact h2
      have hNi : ((childrenOfH s p).eraseIdx r.index).get? rm.index = some m :=
        (eraseIdx_get?_of_lt r.index (childrenOfH s p) rm.index hlt).trans hmi
      have hnot := not_mem_drop_of_get?_lt _ hNnd rm.index m hNi r.index hlt
      rw [finalIdx_pairs_of_not_mem _ r.index m hnot]
      simp [indexOfH_eq_getN s m rm hgm]
    · intro m rm hm hgm hpm2 hgt
      have hmlt := getN_lt_of_some s m rm hgm
      rw [dropOp_index_other s n p r hg hp hplt m hm hmlt]
      have hmi : (childrenOfH s p).get? rm.index = some m := by
        have h2 := hinv m p (by rw [parentOfH_eq_getN s m rm hgm]; exact hpm2)
        rw [indexOfH_eq_getN s m rm hgm] at h2
        exact h2
      have hNi : ((childrenOfH s p).eraseIdx r.index).get? (rm.index - 1) = some m := by
        rw [eraseIdx_get?_of_ge r.index (childrenOfH s p) (rm.index - 1) (by omega)]
        have e : rm.index - 1 + 1 = rm.index := by omega
        rw [e]
        exact hmi
      rw [finalIdx_pairs_of_get? _ r.index (rm.index - 1) m hNnd hNi (by omega)]
      simp
    · intro m rm hm hgm hpne
      have hmlt := getN_lt_of_some s m rm hgm
      rw [dropOp_index_other s n p r hg hp hplt m hm hmlt]
      have hnotN : m ∉ (childrenOfH s p).eraseIdx r.index := by
        intro hmem
        have hmemold := (List.eraseIdx_sublist (childrenOfH s p) r.index).mem hmem
        have h2 := parentMatch_mem s hpm p hplt m hmemold
        apply hpne
        rw [parentOfH_eq_getN s m rm hgm] at h2
        exact h2
      rw [finalIdx_pairs_of_not_mem _ r.index m
        (not_mem_drop_of_not_mem _ r.index m hnotN)]
      simp [indexOfH_eq_getN s m rm hgm]

/-- Witness for C8 on the example heap: dropping the root is a no-op and
dropping the child behaves as described. -/
theorem c8_witness :
    (WFp exHeap ∧ getN exHeap 0 = some ⟨10, none, 0, [1]⟩ ∧
      getN exHeap 1 = some ⟨11, some 0, 0, []⟩) ∧
    dropOp exHeap 0 = exHeap ∧
    childrenOfH (dropOp exHeap 1) 0 =
      (childrenOfH exHeap 0).eraseIdx (⟨11, some 0, 0, []⟩ : NodeRec Nat).index ∧
    parentOfH (dropOp exHeap 1) 1 = none ∧
    indexOfH (dropOp exHeap 1) 1 = 0 :=
  ⟨⟨by decide, by decide, by decide⟩,
    c8_drop_behavior.1 Nat exHeap 0 ⟨10, none, 0, [1]⟩ (by decide) rfl,
    (c8_drop_behavior.2 Nat exHeap 1 0 ⟨11, some 0, 0, []⟩ (by decide) (by decide) rfl).1,
    (c8_drop_behavior.2 Nat exHeap 1 0 ⟨11, some 0, 0, []⟩ (by decide) (by decide) rfl).2.2.1,
    (c8_drop_behavior.2 Nat exHeap 1 0 ⟨11, some 0, 0, []⟩ (by decide) (by decide) rfl).2.2.2.1⟩

/-- C10: `add` never detaches the child from a previous parent: when `c` is
already a child of `p1`, a plain `p2.add(c)` returns normally, `p1`'s
children still contain `c` while `c.parent` now points at `p2`, and the
resulting object graph is no longer tree-shaped (parent pointers no longer
match containment, or a node occurs twice as a child). -/
theorem c10_add_never_detaches :
    ∀ (s : Heap Nat) (p1 p2 c : Nat), WFp s → p1 < s.length → p2 < s.length →
      c < s.length → c ∈ childrenOfH s p1 →
      (addOp s p2 c none).2 = true ∧
      c ∈ childrenOfH (addOp s p2 c none).1 p1 ∧
      parentOfH (addOp s p2 c none).1 c = some p2 ∧
      ¬(parentMatchB (addOp s p2 c none).1 = true ∧
        (allKids (addOp s p2 c none).1).Nodup) := by
  intro s p1 p2 c hWF hp1 hp2 hc hmem
  refine ⟨rfl, ?_, ?_, ?_⟩
  · rw [addOp_append_children s p2 c p1 hp2]
    by_cases h : p1 = p2
    · rw [if_pos h]
      exact List.mem_append_left _ hmem
    · rw [if_neg h]
      exact hmem
  · rw [addOp_append_parent s p2 c c hc, if_pos rfl]
  · rintro ⟨hpm2, hnd2⟩
    by_cases h : p1 = p2
    · have hch : childrenOfH (addOp s p2 c none).1 p2 = childrenOfH s p2 ++ [c] := by
        rw [addOp_append_children s p2 c p2 hp2, if_pos rfl]
      have hcdup : ¬(childrenOfH s p2 ++ [c]).Nodup := by
        intro hnodup
        rw [List.nodup_append] at hnodup
        exact hnodup.2.2 (h ▸ hmem) (List.mem_singleton_self c)
      have hsub := children_sublist_allKids (addOp s p2 c none).1 p2
        (by rw [length_addOp_none]; exact hp2)
      have hnodup2 := hnd2.sublist hsub
      rw [hch] at hnodup2
      exact hcdup hnodup2
    · have hmem2 : c ∈ childrenOfH (addOp s p2 c none).1 p1 := by
        rw [addOp_append_children s p2 c p1 hp2, if_neg h]
        exact hmem
      have h2 := parentMatch_mem _ hpm2 p1
        (by rw [length_addOp_none]; exact hp1) c hmem2
      rw [addOp_append_parent s p2 c c hc, if_pos rfl] at h2
      exact h (Option.some.inj h2).symm

/-- Witness for C10 on the example heap: adding node 1 (already the child
of node 0) to node 2. -/
theorem c10_witness :
    (WFp exHeap ∧ 0 < exHeap.length ∧ 2 < exHeap.length ∧ 1 < exHeap.length ∧
      1 ∈ childrenOfH exHeap 0) ∧
    ((addOp exHeap 2 1 none).2 = true ∧
      1 ∈ childrenOfH (addOp exHeap 2 1 none).1 0 ∧
      parentOfH (addOp exHeap 2 1 none).1 1 = some 2 ∧
      ¬(parentMatchB (addOp exHeap 2 1 none).1 = true ∧
        (allKids (addOp exHeap 2 1 none).1).Nodup)) :=
  ⟨⟨by decide, by decide, by decide, by decide, by decide⟩,
    c10_add_never_detaches exHeap 0 2 1 (by decide) (by decide) (by decide)
      (by decide) (by decide)⟩

/-- Counterexample for C2 as stated: `add` with an out-of-range explicit
index throws, and the parent's children and all indices are untouched, but
the child's parent pointer has already been reassigned — the heap is not
left exactly as it was. -/
theorem c2_counterexample :
    (addOp exHeap 0 2 (some 5)).2 = false ∧
    (addOp exHeap 0 2 (some 5)).1 ≠ exHeap ∧
    parentOfH exHeap 2 = none ∧
    parentOfH (addOp exHeap 0 2 (some 5)).1 2 = some 0 := by
  decide

/-- C2 (amended): a failing `add(child, k)` with `k < 0` or
`k > children.length` returns abnormally before any change to any children
list, any cached index or any payload — and every other node's parent is
untouched — but `child.parent` has already been reassigned to the target
parent, because the source assigns it before validating the index. -/
theorem c2_amended_failed_add :
    ∀ (α : Type) (s : Heap α) (p c : Nat) (k : Int),
      (k < 0 ∨ ((childrenOfH s p).length : Int) < k) →
      (addOp s p c (some k)).2 = false ∧
      (∀ q, childrenOfH (addOp s p c (some k)).1 q = childrenOfH s q) ∧
      (∀ m, indexOfH (addOp s p c (some k)).1 m = indexOfH s m) ∧
      (∀ m, ((getN (addOp s p c (some k)).1 m).map NodeRec.model) =
        ((getN s m).map NodeRec.model)) ∧
      (∀ m, m ≠ c → parentOfH (addOp s p c (some k)).1 m = parentOfH s m) ∧
      (c < s.length → parentOfH (addOp s p c (some k)).1 c = some p) := by
  intro α s p c k hbad
  rw [addOp_fail_eq s p c k hbad]
  refine ⟨rfl, ?_, ?_, ?_, ?_, ?_⟩
  · intro q
    exact childrenOfH_updN_parg s c q _
  · intro m
    exact indexOfH_updN_parg s c m _
  · intro m
    exact modelOfH_updN_parg s c m _
  · intro m hm
    exact parentOfH_updN_ne s c m _ hm
  · intro hc
    obtain ⟨rc, hrc⟩ := getN_some_of_lt s c hc
    exact parentOfH_updN_self s c rc hrc _

/-- Witness for the amended C2 at the example heap with index 5. -/
theorem c2_witness :
    ((5 : Int) < 0 ∨ ((childrenOfH exHeap 0).length : Int) < 5) ∧
    ((addOp exHeap 0 2 (some 5)).2 = false ∧
      childrenOfH (addOp exHeap 0 2 (some 5)).1 0 = childrenOfH exHeap 0 ∧
      indexOfH (addOp exHeap 0 2 (some 5)).1 2 = indexOfH exHeap 2 ∧
      parentOfH (addOp exHeap 0 2 (some 5)).1 2 = some 0) :=
  ⟨by decide,
    (c2_amended_failed_add Nat exHeap 0 2 5 (by decide)).1,
    (c2_amended_failed_add Nat exHeap 0 2 5 (by decide)).2.1 0,
    (c2_amended_failed_add Nat exHeap 0 2 5 (by decide)).2.2.1 2,
    (c2_amended_failed_add Nat exHeap 0 2 5 (by decide)).2.2.2.2.2 (by decide)⟩

end TreeNodeTS
